import Mathlib

/-!
# Processor containers: the scheduling core of `ioctl.c`

A shallow embedding of `src/kernel_module/src/ioctl.c`.

* The global singly linked list `containerListHead` is a `List container`, in
  directory order; `NULL` is `[]`.
* The singly linked list `threadList` of a container is a `List Pid`, front first:
  every `containerThreads` node is represented by the pid of the task it points
  to, which is the only field the code compares.
* A verb is a function of the directory, the request pointer `user_cmd`
  (`none` is `NULL`) and the calling task `current`. It returns the new
  directory, the trace of the lock, wake-up and sleep calls it made, in program
  order, and its return value; or a fault when the C code dereferences `NULL`.
* Allocation (`kmalloc`) is taken to succeed; `printk` and `kfree` leave no mark. A
  request pointer that is not `NULL` is taken to be readable by `copy_from_user`.
* A verb is one atomic step: the interleaving of two verbs is not modelled.
-/

namespace ResourceContainers

/-- Process identifier: the `pid` field of a `task_struct`. -/
abbrev Pid := Nat

/-- Modelled from the spec: `struct processor_container_cmd` is declared in the header
`processor_container.h`, which is not part of the sources at hand. A request carries one
64-bit container identifier, the field `cid` the code reads; the code initialises two
fields, the second is never read. -/
structure processor_container_cmd where
  cid : Nat
  op : Nat
deriving DecidableEq, Repr

/-- The `struct container` of the source: its id and its thread list (the `next` link is
the list structure of the directory; the lock shows in the trace). -/
structure container where
  cid : Nat
  threadList : List Pid
deriving DecidableEq, Repr

/-- The directory hanging off `containerListHead`. -/
abbrev Registry := List container

/-- The ways a verb can go wrong in the kernel. -/
inductive Fault where
  | null_dereference
deriving DecidableEq, Repr

/-- The calls a verb makes that other tasks can observe, in program order. Container locks
are named by the id of the container that owns them. -/
inductive Event where
  | mutex_lock_list
  | mutex_unlock_list
  | mutex_lock_container (cid : Nat)
  | mutex_unlock_container (cid : Nat)
  | wake_up_process (pid : Pid)
  | schedule
deriving DecidableEq, Repr

/-- What a verb leaves behind when it returns. -/
structure Outcome where
  containerListHead : Registry
  trace : List Event
  ret : Int
deriving DecidableEq, Repr

deriving instance DecidableEq for Except

/-- Lines 92-97 of `processor_container_delete`: the walk
`while(containerPtr->cid != my_cmd.cid)`, whose condition dereferences `containerPtr`
without testing it. The result is the containers walked over (`prevContainerPtr` is
their last one, `NULL` when there are none), the container found, and what follows it. -/
def delete_findContainer (cid : Nat) :
    List container → Except Fault (List container × container × List container)
  | [] => .error .null_dereference
  | containerPtr :: next =>
    if containerPtr.cid ≠ cid then
      match delete_findContainer cid next with
      | .ok (prev, found, rest) => .ok (containerPtr :: prev, found, rest)
      | .error e => .error e
    else .ok ([], containerPtr, next)

/-- Lines 119-124 of `processor_container_delete`: the walk
`while(threadPtr->currentPtr->pid != current->pid)`, whose condition dereferences
`threadPtr` without testing it. The result is the entries walked over
(`threadPtrPrevious` is their last one), the entry found, and what follows it. -/
def delete_findThread (current : Pid) :
    List Pid → Except Fault (List Pid × Pid × List Pid)
  | [] => .error .null_dereference
  | threadPtr :: next =>
    if threadPtr ≠ current then
      match delete_findThread current next with
      | .ok (prev, found, rest) => .ok (threadPtr :: prev, found, rest)
      | .error e => .error e
    else .ok ([], threadPtr, next)

/-- The function `processor_container_delete` of the source (lines 72-167). -/
def processor_container_delete (containerListHead : Registry)
    (user_cmd : Option processor_container_cmd) (current : Pid) : Except Fault Outcome :=
  match user_cmd with
  | none => .ok ⟨containerListHead, [], 0⟩
  | some my_cmd =>
    match containerListHead with
    | [] => .ok ⟨containerListHead, [.mutex_lock_list, .mutex_unlock_list], 0⟩
    | _ :: _ =>
      match delete_findContainer my_cmd.cid containerListHead with
      | .error e => .error e
      | .ok (prevContainers, containerPtr, nextContainers) =>
        match containerPtr.threadList with
        | [] =>
          .ok ⟨containerListHead,
            [.mutex_lock_list, .mutex_unlock_list,
             .mutex_lock_container containerPtr.cid,
             .mutex_unlock_container containerPtr.cid], 0⟩
        | _ :: _ =>
          match delete_findThread current containerPtr.threadList with
          | .error e => .error e
          | .ok (threadsPrevious, _, threadsNext) =>
            if threadsPrevious ≠ [] then
              .ok ⟨prevContainers ++
                    { containerPtr with threadList := threadsPrevious ++ threadsNext } ::
                    nextContainers,
                [.mutex_lock_list, .mutex_unlock_list,
                 .mutex_lock_container containerPtr.cid,
                 .mutex_unlock_container containerPtr.cid], 0⟩
            else
              match threadsNext with
              | newFront :: _ =>
                .ok ⟨prevContainers ++
                      { containerPtr with threadList := threadsNext } :: nextContainers,
                  [.mutex_lock_list, .mutex_unlock_list,
                   .mutex_lock_container containerPtr.cid,
                   .wake_up_process newFront,
                   .mutex_unlock_container containerPtr.cid], 0⟩
              | [] =>
                .ok ⟨if prevContainers ≠ [] then prevContainers ++ nextContainers
                     else nextContainers,
                  [.mutex_lock_list, .mutex_unlock_list,
                   .mutex_lock_container containerPtr.cid,
                   .mutex_lock_list, .mutex_unlock_list,
                   .mutex_unlock_container containerPtr.cid], 0⟩

/-- Lines 193-197 of `processor_container_create`: the loop
`for(ptr = containerListHead; ptr != NULL; ptr=ptr->next)` that stops at the first
container with the requested id. The result is `none` when `ptr` ends as `NULL`, else
the containers before `ptr`, the container `ptr` and those after it. -/
def create_findContainer (cid : Nat) :
    List container → Option (List container × container × List container)
  | [] => none
  | ptr :: next =>
    if ptr.cid = cid then some ([], ptr, next)
    else
      match create_findContainer cid next with
      | some (before, found, rest) => some (ptr :: before, found, rest)
      | none => none

/-- The function `processor_container_create` of the source (lines 177-255). -/
def processor_container_create (containerListHead : Registry)
    (user_cmd : Option processor_container_cmd) (current : Pid) : Except Fault Outcome :=
  match user_cmd with
  | none => .ok ⟨containerListHead, [], 0⟩
  | some my_cmd =>
    match create_findContainer my_cmd.cid containerListHead with
    | none =>
      let tempContainer : container := { cid := my_cmd.cid, threadList := [current] }
      .ok ⟨match containerListHead with
           | [] => [tempContainer]
           | _ :: _ => containerListHead ++ [tempContainer],
        [.mutex_lock_list, .mutex_unlock_list], 0⟩
    | some (before, ptr, after) =>
      match ptr.threadList with
      | [] =>
        .ok ⟨containerListHead,
          [.mutex_lock_list, .mutex_unlock_list,
           .mutex_lock_container ptr.cid, .mutex_unlock_list], 0⟩
      | _ :: _ =>
        .ok ⟨before ++ { ptr with threadList := ptr.threadList ++ [current] } :: after,
          [.mutex_lock_list, .mutex_unlock_list,
           .mutex_lock_container ptr.cid, .mutex_unlock_container ptr.cid,
           .schedule], 0⟩

/-- Lines 281-283 of `processor_container_switch`: the walk
`while(containerPtr != NULL && containerPtr->threadList->currentPtr->pid != current->pid)`.
It tests `containerPtr` but dereferences `containerPtr->threadList` untested. The result
is `none` when `containerPtr` ends as `NULL`, else the containers walked over, the
container found and those after it. -/
def switch_findContainer (current : Pid) :
    List container → Except Fault (Option (List container × container × List container))
  | [] => .ok none
  | containerPtr :: next =>
    match containerPtr.threadList with
    | [] => .error .null_dereference
    | front :: _ =>
      if front ≠ current then
        match switch_findContainer current next with
        | .ok (some (walked, found, rest)) => .ok (some (containerPtr :: walked, found, rest))
        | .ok none => .ok none
        | .error e => .error e
      else .ok (some ([], containerPtr, next))

/-- The function `processor_container_switch` of the source (lines 263-322). -/
def processor_container_switch (containerListHead : Registry)
    (user_cmd : Option processor_container_cmd) (current : Pid) : Except Fault Outcome :=
  match user_cmd with
  | none => .ok ⟨containerListHead, [], 0⟩
  | some _ =>
    match containerListHead with
    | [] => .ok ⟨containerListHead, [.mutex_lock_list, .mutex_unlock_list], 0⟩
    | _ :: _ =>
      match switch_findContainer current containerListHead with
      | .error e => .error e
      | .ok none => .ok ⟨containerListHead, [.mutex_lock_list, .mutex_unlock_list], 0⟩
      | .ok (some (walked, containerPtr, rest)) =>
        match containerPtr.threadList with
        | [] => .error .null_dereference
        | currentThreadPtr :: threadsNext =>
          match threadsNext with
          | [] => .ok ⟨containerListHead, [.mutex_lock_list, .mutex_unlock_list], 0⟩
          | newFront :: _ =>
            .ok ⟨walked ++
                  { containerPtr with threadList := threadsNext ++ [currentThreadPtr] } ::
                  rest,
              [.mutex_lock_list, .mutex_unlock_list,
               .wake_up_process newFront, .schedule], 0⟩

/-! ## Reading a trace and a directory -/

/-- The tasks a trace wakes, in the order of the `wake_up_process` calls. -/
def wakes (trace : List Event) : List Pid :=
  trace.filterMap fun e =>
    match e with
    | .wake_up_process pid => some pid
    | _ => none

/-- Whether the caller put itself to sleep (`set_current_state(TASK_INTERRUPTIBLE)` followed
by `schedule()`) in this trace. -/
def suspends (trace : List Event) : Bool :=
  trace.contains .schedule

/-- The container the directory holds for an id: the first one in directory order, which
is the one every search of the source stops at. -/
def lookup : Registry → Nat → Option container
  | [], _ => none
  | x :: rest, cid => if x.cid = cid then some x else lookup rest cid

/-! ## Runs of requests -/

/-- The member at the front of the container at position `i` of the directory. -/
def frontAt (registry : Registry) (i : Nat) : Option Pid :=
  match registry[i]? with
  | some x => x.threadList.head?
  | none => none

/-- The directory after `k` successive Yields on the container at position `i`, each one
issued through `processor_container_switch` by the member that is at the front of that
container at that moment. It is `none` when there is no such member to issue a Yield, or
when a Yield faults. -/
def yields (cmd : processor_container_cmd) (i : Nat) : Nat → Registry → Option Registry
  | 0, registry => some registry
  | k + 1, registry =>
    match frontAt registry i with
    | none => none
    | some p =>
      match processor_container_switch registry (some cmd) p with
      | .ok o => yields cmd i k o.containerListHead
      | .error _ => none

/-- The directory together with the run state of every task: `suspended p` tells whether
task `p` has put itself to sleep and has not been woken since. -/
structure System where
  containerListHead : Registry
  suspended : Pid → Bool

/-- The state at module load: `containerListHead = NULL`, nobody asleep. -/
def System.init : System := ⟨[], fun _ => false⟩

/-- The effect of one call of the trace of `current` on the run states:
`wake_up_process` clears the flag of the task woken, `schedule` (after
`set_current_state(TASK_INTERRUPTIBLE)`) sets the flag of the caller. -/
def note (current : Pid) (suspended : Pid → Bool) : Event → Pid → Bool
  | .wake_up_process pid => fun x => if x = pid then false else suspended x
  | .schedule => fun x => if x = current then true else suspended x
  | _ => suspended

/-- The state after a verb called by `current` has returned with outcome `o`: the
directory it left, and the run states after the calls of its trace, in program order. -/
def System.after (s : System) (current : Pid) (o : Outcome) : System :=
  ⟨o.containerListHead, o.trace.foldl (note current) s.suspended⟩

/-- The states the module can be in, starting from the empty directory, when tasks call
the three verbs one request at a time: only a task that is not asleep issues a request,
a task joins only while it is in no container, and a Leave names the container the
caller is in. A request pointer may be `NULL`. -/
inductive Reachable : System → Prop
  | init : Reachable System.init
  | join (s : System) (user_cmd : Option processor_container_cmd) (p : Pid) (o : Outcome) :
      Reachable s → s.suspended p = false →
      (∀ x ∈ s.containerListHead, p ∉ x.threadList) →
      processor_container_create s.containerListHead user_cmd p = .ok o →
      Reachable (s.after p o)
  | yield (s : System) (user_cmd : Option processor_container_cmd) (p : Pid) (o : Outcome) :
      Reachable s → s.suspended p = false →
      processor_container_switch s.containerListHead user_cmd p = .ok o →
      Reachable (s.after p o)
  | leave (s : System) (user_cmd : Option processor_container_cmd) (p : Pid) (o : Outcome) :
      Reachable s → s.suspended p = false →
      (∀ cmd, user_cmd = some cmd →
        ∃ x ∈ s.containerListHead, x.cid = cmd.cid ∧ p ∈ x.threadList) →
      processor_container_delete s.containerListHead user_cmd p = .ok o →
      Reachable (s.after p o)

/-- All the entries of all the thread lists of the directory, in directory order. -/
def members : Registry → List Pid
  | [] => []
  | x :: rest => x.threadList ++ members rest

/-- The shape of the states the module keeps to: every registered container has a member,
ids are pairwise distinct, no task has two entries anywhere in the directory, and in every
container the front is awake while all the others sleep. -/
def Consistent (s : System) : Prop :=
  (∀ x ∈ s.containerListHead, x.threadList ≠ []) ∧
  (s.containerListHead.map container.cid).Nodup ∧
  (members s.containerListHead).Nodup ∧
  ∀ x ∈ s.containerListHead, ∀ f t, x.threadList = f :: t →
    s.suspended f = false ∧ ∀ q ∈ t, s.suspended q = true

/-- The directories the module can be in, starting from the empty one, when tasks call
the three verbs one request at a time and every request returns: any task may issue any
request, with any request pointer. -/
inductive Run : Registry → Prop
  | init : Run []
  | join (registry : Registry) (user_cmd : Option processor_container_cmd) (p : Pid)
      (o : Outcome) : Run registry →
      processor_container_create registry user_cmd p = .ok o → Run o.containerListHead
  | yield (registry : Registry) (user_cmd : Option processor_container_cmd) (p : Pid)
      (o : Outcome) : Run registry →
      processor_container_switch registry user_cmd p = .ok o → Run o.containerListHead
  | leave (registry : Registry) (user_cmd : Option processor_container_cmd) (p : Pid)
      (o : Outcome) : Run registry →
      processor_container_delete registry user_cmd p = .ok o → Run o.containerListHead

/-- As `Run`, with one restriction: a task issues Create-or-Join on an id only while it has
no entry in the container the directory holds for that id. -/
inductive RunJoinOnce : Registry → Prop
  | init : RunJoinOnce []
  | join (registry : Registry) (user_cmd : Option processor_container_cmd) (p : Pid)
      (o : Outcome) : RunJoinOnce registry →
      (∀ cmd x, user_cmd = some cmd → lookup registry cmd.cid = some x →
        p ∉ x.threadList) →
      processor_container_create registry user_cmd p = .ok o →
      RunJoinOnce o.containerListHead
  | yield (registry : Registry) (user_cmd : Option processor_container_cmd) (p : Pid)
      (o : Outcome) : RunJoinOnce registry →
      processor_container_switch registry user_cmd p = .ok o →
      RunJoinOnce o.containerListHead
  | leave (registry : Registry) (user_cmd : Option processor_container_cmd) (p : Pid)
      (o : Outcome) : RunJoinOnce registry →
      processor_container_delete registry user_cmd p = .ok o →
      RunJoinOnce o.containerListHead

/-- The ids of the directory, in directory order. -/
def ids (registry : Registry) : List Nat :=
  registry.map container.cid

/-- A well-formed directory, as the data model has it: ids are pairwise distinct, every
registered container has a member, and no container lists a task twice. -/
def WellFormed (registry : Registry) : Prop :=
  (ids registry).Nodup ∧ (∀ x ∈ registry, x.threadList ≠ []) ∧
    ∀ x ∈ registry, x.threadList.Nodup

/-- The containers of the directory other than those with the given id, in directory
order. -/
def others (cid : Nat) (registry : Registry) : List container :=
  registry.filter fun x => decide (x.cid ≠ cid)

/-- The locks a task holds: whether it holds `containerListLock`, and the ids of the
containers whose `perContainerLock` it holds. -/
structure Held where
  list : Bool
  containers : List Nat
deriving DecidableEq, Repr

/-- The locks held after one more call of the trace. -/
def Held.step (h : Held) : Event → Held
  | .mutex_lock_list => { h with list := true }
  | .mutex_unlock_list => { h with list := false }
  | .mutex_lock_container cid => { h with containers := cid :: h.containers }
  | .mutex_unlock_container cid => { h with containers := h.containers.erase cid }
  | _ => h

/-- Whether the list lock and some container lock are held together. -/
def Held.both (h : Held) : Bool :=
  h.list && !h.containers.isEmpty

/-- Whether, running the trace from the locks held at its start, there is no point at
which the list lock and a container lock are held together. -/
def neverBoth : Held → List Event → Bool
  | _, [] => true
  | h, e :: rest => !(h.step e).both && neverBoth (h.step e) rest

/-- Whether, running the trace from the locks held at its start, the list lock is not held
at any call that acquires a container lock. -/
def listReleasedFirst : Held → List Event → Bool
  | _, [] => true
  | h, e :: rest =>
    (match e with
      | .mutex_lock_container _ => !h.list
      | _ => true) && listReleasedFirst (h.step e) rest

/-! ## Facts about the searches -/

theorem create_findContainer_none (cid : Nat) (registry : Registry)
    (h : ∀ x ∈ registry, x.cid ≠ cid) : create_findContainer cid registry = none := by
  induction registry with
  | nil => rfl
  | cons x xs ih =>
    have hx : x.cid ≠ cid := h x (List.mem_cons_self _ _)
    have hxs : ∀ y ∈ xs, y.cid ≠ cid := fun y hy => h y (List.mem_cons_of_mem _ hy)
    simp [create_findContainer, hx, ih hxs]

theorem create_findContainer_first (cid : Nat) (before : List container) (x : container)
    (after : List container) (hx : x.cid = cid) (h : ∀ y ∈ before, y.cid ≠ cid) :
    create_findContainer cid (before ++ x :: after) = some (before, x, after) := by
  induction before with
  | nil => simp [create_findContainer, hx]
  | cons y ys ih =>
    have hy : y.cid ≠ cid := h y (List.mem_cons_self _ _)
    have hys : ∀ z ∈ ys, z.cid ≠ cid := fun z hz => h z (List.mem_cons_of_mem _ hz)
    simp [create_findContainer, hy, ih hys]

theorem delete_findContainer_first (cid : Nat) (before : List container) (x : container)
    (after : List container) (hx : x.cid = cid) (h : ∀ y ∈ before, y.cid ≠ cid) :
    delete_findContainer cid (before ++ x :: after) = .ok (before, x, after) := by
  induction before with
  | nil => simp [delete_findContainer, hx]
  | cons y ys ih =>
    have hy : y.cid ≠ cid := h y (List.mem_cons_self _ _)
    have hys : ∀ z ∈ ys, z.cid ≠ cid := fun z hz => h z (List.mem_cons_of_mem _ hz)
    simp [delete_findContainer, hy, ih hys]

theorem delete_findThread_first (p : Pid) (before after : List Pid)
    (h : ∀ y ∈ before, y ≠ p) :
    delete_findThread p (before ++ p :: after) = .ok (before, p, after) := by
  induction before with
  | nil => simp [delete_findThread]
  | cons y ys ih =>
    have hy : y ≠ p := h y (List.mem_cons_self _ _)
    have hys : ∀ z ∈ ys, z ≠ p := fun z hz => h z (List.mem_cons_of_mem _ hz)
    simp [delete_findThread, hy, ih hys]

theorem switch_findContainer_first (p : Pid) (walked : List container) (x : container)
    (rest : List container) (tail : List Pid) (hx : x.threadList = p :: tail)
    (hne : ∀ y ∈ walked, y.threadList ≠ [])
    (hfront : ∀ y ∈ walked, y.threadList.head? ≠ some p) :
    switch_findContainer p (walked ++ x :: rest) = .ok (some (walked, x, rest)) := by
  induction walked with
  | nil => simp [switch_findContainer, hx]
  | cons y ys ih =>
    have h1 := hne y (List.mem_cons_self _ _)
    have h2 := hfront y (List.mem_cons_self _ _)
    have ih2 := ih (fun z hz => hne z (List.mem_cons_of_mem _ hz))
      (fun z hz => hfront z (List.mem_cons_of_mem _ hz))
    cases hy : y.threadList with
    | nil => exact absurd hy h1
    | cons f t =>
      have hf : f ≠ p := by
        intro hfp
        apply h2
        simp [hy, hfp]
      simp [switch_findContainer, hy, hf, ih2]

theorem switch_findContainer_none (p : Pid) (registry : Registry)
    (hne : ∀ y ∈ registry, y.threadList ≠ [])
    (hfront : ∀ y ∈ registry, y.threadList.head? ≠ some p) :
    switch_findContainer p registry = .ok none := by
  induction registry with
  | nil => rfl
  | cons y ys ih =>
    have h1 := hne y (List.mem_cons_self _ _)
    have h2 := hfront y (List.mem_cons_self _ _)
    have ih2 := ih (fun z hz => hne z (List.mem_cons_of_mem _ hz))
      (fun z hz => hfront z (List.mem_cons_of_mem _ hz))
    cases hy : y.threadList with
    | nil => exact absurd hy h1
    | cons f t =>
      have hf : f ≠ p := by
        intro hfp
        apply h2
        simp [hy, hfp]
      simp [switch_findContainer, hy, hf, ih2]

/-- What `lookup` finds is the first container of the directory with that id. -/
theorem lookup_eq_some (registry : Registry) (cid : Nat) (x : container)
    (h : lookup registry cid = some x) :
    x.cid = cid ∧ ∃ before after, registry = before ++ x :: after ∧
      ∀ y ∈ before, y.cid ≠ cid := by
  induction registry with
  | nil => simp [lookup] at h
  | cons y ys ih =>
    by_cases hy : y.cid = cid
    · have hxy : y = x := by simpa [lookup, hy] using h
      subst hxy
      exact ⟨hy, [], ys, rfl, by simp⟩
    · have h2 : lookup ys cid = some x := by simpa [lookup, hy] using h
      obtain ⟨hx, before, after, heq, hb⟩ := ih h2
      refine ⟨hx, y :: before, after, by simp [heq], ?_⟩
      intro z hz
      rcases List.mem_cons.1 hz with hz | hz
      · exact hz ▸ hy
      · exact hb z hz

theorem lookup_first (cid : Nat) (before : List container) (x : container)
    (after : List container) (hx : x.cid = cid) (h : ∀ y ∈ before, y.cid ≠ cid) :
    lookup (before ++ x :: after) cid = some x := by
  induction before with
  | nil => simp [lookup, hx]
  | cons y ys ih =>
    have hy : y.cid ≠ cid := h y (List.mem_cons_self _ _)
    have hys : ∀ z ∈ ys, z.cid ≠ cid := fun z hz => h z (List.mem_cons_of_mem _ hz)
    simpa [lookup, hy] using ih hys

theorem lookup_eq_none (registry : Registry) (cid : Nat)
    (h : ∀ y ∈ registry, y.cid ≠ cid) : lookup registry cid = none := by
  induction registry with
  | nil => rfl
  | cons y ys ih =>
    have hy : y.cid ≠ cid := h y (List.mem_cons_self _ _)
    simpa [lookup, hy] using ih (fun z hz => h z (List.mem_cons_of_mem _ hz))

/-! ## The verbs, branch by branch -/

theorem create_of_absent (registry : Registry) (cmd : processor_container_cmd) (p : Pid)
    (hfind : create_findContainer cmd.cid registry = none) :
    processor_container_create registry (some cmd) p =
      .ok ⟨registry ++ [⟨cmd.cid, [p]⟩], [.mutex_lock_list, .mutex_unlock_list], 0⟩ := by
  cases registry with
  | nil => simp [processor_container_create, create_findContainer]
  | cons a as => simp only [processor_container_create, hfind]

theorem create_of_found (registry : Registry) (cmd : processor_container_cmd) (p : Pid)
    (before after : List container) (x : container) (f : Pid) (t : List Pid)
    (hfind : create_findContainer cmd.cid registry = some (before, x, after))
    (hx : x.threadList = f :: t) :
    processor_container_create registry (some cmd) p =
      .ok ⟨before ++ ⟨x.cid, f :: t ++ [p]⟩ :: after,
        [.mutex_lock_list, .mutex_unlock_list, .mutex_lock_container x.cid,
         .mutex_unlock_container x.cid, .schedule], 0⟩ := by
  simp only [processor_container_create, hfind]
  split
  · rename_i h
    rw [hx] at h
    exact absurd h (by simp)
  · simp [hx]

theorem switch_of_absent (registry : Registry) (cmd : processor_container_cmd) (p : Pid)
    (hfind : switch_findContainer p registry = .ok none) :
    processor_container_switch registry (some cmd) p =
      .ok ⟨registry, [.mutex_lock_list, .mutex_unlock_list], 0⟩ := by
  cases registry with
  | nil => simp [processor_container_switch]
  | cons a as => simp only [processor_container_switch, hfind]

theorem switch_of_alone (registry : Registry) (cmd : processor_container_cmd) (p : Pid)
    (walked rest : List container) (x : container) (f : Pid)
    (hfind : switch_findContainer p registry = .ok (some (walked, x, rest)))
    (hx : x.threadList = [f]) :
    processor_container_switch registry (some cmd) p =
      .ok ⟨registry, [.mutex_lock_list, .mutex_unlock_list], 0⟩ := by
  cases registry with
  | nil => simp [switch_findContainer] at hfind
  | cons a as => simp only [processor_container_switch, hfind, hx]

theorem switch_of_found (registry : Registry) (cmd : processor_container_cmd) (p : Pid)
    (walked rest : List container) (x : container) (f n : Pid) (t : List Pid)
    (hfind : switch_findContainer p registry = .ok (some (walked, x, rest)))
    (hx : x.threadList = f :: n :: t) :
    processor_container_switch registry (some cmd) p =
      .ok ⟨walked ++ ⟨x.cid, n :: t ++ [f]⟩ :: rest,
        [.mutex_lock_list, .mutex_unlock_list, .wake_up_process n, .schedule], 0⟩ := by
  cases registry with
  | nil => simp [switch_findContainer] at hfind
  | cons a as => simp only [processor_container_switch, hfind, hx]

theorem delete_of_inner (registry : Registry) (cmd : processor_container_cmd) (p : Pid)
    (before after : List container) (x : container) (tp tn : List Pid) (y : Pid)
    (hfind : delete_findContainer cmd.cid registry = .ok (before, x, after))
    (ht : delete_findThread p x.threadList = .ok (tp, y, tn)) (htp : tp ≠ []) :
    processor_container_delete registry (some cmd) p =
      .ok ⟨before ++ ⟨x.cid, tp ++ tn⟩ :: after,
        [.mutex_lock_list, .mutex_unlock_list, .mutex_lock_container x.cid,
         .mutex_unlock_container x.cid], 0⟩ := by
  cases registry with
  | nil => simp [delete_findContainer] at hfind
  | cons a as =>
    simp only [processor_container_delete, hfind]
    cases hq : x.threadList with
    | nil => simp [hq, delete_findThread] at ht
    | cons f t =>
      rw [hq] at ht
      simp only [ht]
      simp [htp]

theorem delete_of_front (registry : Registry) (cmd : processor_container_cmd) (p : Pid)
    (before after : List container) (x : container) (tn : List Pid) (y n : Pid)
    (hfind : delete_findContainer cmd.cid registry = .ok (before, x, after))
    (ht : delete_findThread p x.threadList = .ok ([], y, n :: tn)) :
    processor_container_delete registry (some cmd) p =
      .ok ⟨before ++ ⟨x.cid, n :: tn⟩ :: after,
        [.mutex_lock_list, .mutex_unlock_list, .mutex_lock_container x.cid,
         .wake_up_process n, .mutex_unlock_container x.cid], 0⟩ := by
  cases registry with
  | nil => simp [delete_findContainer] at hfind
  | cons a as =>
    simp only [processor_container_delete, hfind]
    cases hq : x.threadList with
    | nil => simp [hq, delete_findThread] at ht
    | cons f t =>
      rw [hq] at ht
      simp only [ht]
      simp

theorem delete_of_last (registry : Registry) (cmd : processor_container_cmd) (p : Pid)
    (before after : List container) (x : container) (y : Pid)
    (hfind : delete_findContainer cmd.cid registry = .ok (before, x, after))
    (ht : delete_findThread p x.threadList = .ok ([], y, [])) :
    processor_container_delete registry (some cmd) p =
      .ok ⟨before ++ after,
        [.mutex_lock_list, .mutex_unlock_list, .mutex_lock_container x.cid,
         .mutex_lock_list, .mutex_unlock_list, .mutex_unlock_container x.cid], 0⟩ := by
  cases registry with
  | nil => simp [delete_findContainer] at hfind
  | cons a as =>
    simp only [processor_container_delete, hfind]
    cases hq : x.threadList with
    | nil => simp [hq, delete_findThread] at ht
    | cons f t =>
      rw [hq] at ht
      simp only [ht]
      cases before <;> simp

/-! ## Create-or-Join -/

/-- C1. Create-or-Join on an id the directory does not hold: the verb returns, the new
directory is the old one followed by a container with that id whose queue is exactly the
caller, so the directory holds container `c` with queue `[p]`; the caller does not sleep
and nobody is woken. -/
theorem create_fresh_id (registry : Registry) (cmd : processor_container_cmd) (p : Pid)
    (hfresh : ∀ x ∈ registry, x.cid ≠ cmd.cid) :
    ∃ o, processor_container_create registry (some cmd) p = .ok o ∧
      o.containerListHead = registry ++ [{ cid := cmd.cid, threadList := [p] }] ∧
      lookup o.containerListHead cmd.cid = some { cid := cmd.cid, threadList := [p] } ∧
      suspends o.trace = false ∧ wakes o.trace = [] := by
  have hfind := create_findContainer_none cmd.cid registry hfresh
  refine ⟨_, create_of_absent registry cmd p hfind, rfl, ?_, rfl, rfl⟩
  exact lookup_first cmd.cid registry _ [] rfl hfresh

theorem create_fresh_id_witness :
    (∀ x ∈ ([⟨7, [3, 4]⟩] : Registry), x.cid ≠ (⟨1, 0⟩ : processor_container_cmd).cid) ∧
    ∃ o, processor_container_create [⟨7, [3, 4]⟩] (some ⟨1, 0⟩) 5 = .ok o ∧
      o.containerListHead = [⟨7, [3, 4]⟩] ++ [{ cid := 1, threadList := [5] }] ∧
      lookup o.containerListHead 1 = some { cid := 1, threadList := [5] } ∧
      suspends o.trace = false ∧ wakes o.trace = [] :=
  ⟨by decide, create_fresh_id [⟨7, [3, 4]⟩] ⟨1, 0⟩ 5 (by decide)⟩

/-- C2. Create-or-Join on an id whose container has a non-empty queue `q`: the verb
returns, that container now has queue `q ++ [p]` (old members in their order, the old
front still in front, the caller last) and nothing else in the directory moved; the caller
goes to sleep and nobody is woken. The container the directory holds for the id is the
one `lookup` finds. -/
theorem create_join_existing (registry : Registry) (cmd : processor_container_cmd)
    (p : Pid) (x : container)
    (hfound : lookup registry cmd.cid = some x) (hne : x.threadList ≠ []) :
    ∃ o before after, processor_container_create registry (some cmd) p = .ok o ∧
      registry = before ++ x :: after ∧
      o.containerListHead =
        before ++ { cid := cmd.cid, threadList := x.threadList ++ [p] } :: after ∧
      lookup o.containerListHead cmd.cid =
        some { cid := cmd.cid, threadList := x.threadList ++ [p] } ∧
      (x.threadList ++ [p]).head? = x.threadList.head? ∧
      suspends o.trace = true ∧ wakes o.trace = [] := by
  obtain ⟨hx, before, after, hreg, hb⟩ := lookup_eq_some registry cmd.cid x hfound
  have hfind := create_findContainer_first cmd.cid before x after hx hb
  obtain ⟨xc, xq⟩ := x
  simp only at hx hne
  subst hx
  cases xq with
  | nil => exact absurd rfl hne
  | cons f t =>
    have heq := create_of_found registry cmd p before after ⟨cmd.cid, f :: t⟩ f t
      (hreg ▸ hfind) rfl
    refine ⟨_, before, after, heq, hreg, rfl, ?_, rfl, rfl, rfl⟩
    exact lookup_first _ before _ after rfl hb

theorem create_join_existing_witness :
    lookup [⟨7, [3]⟩, ⟨1, [4, 6]⟩] (⟨1, 0⟩ : processor_container_cmd).cid
      = some ⟨1, [4, 6]⟩ ∧
    ∃ o before after,
      processor_container_create [⟨7, [3]⟩, ⟨1, [4, 6]⟩] (some ⟨1, 0⟩) 5 = .ok o ∧
      [⟨7, [3]⟩, ⟨1, [4, 6]⟩] = before ++ (⟨1, [4, 6]⟩ : container) :: after ∧
      o.containerListHead = before ++ { cid := 1, threadList := [4, 6] ++ [5] } :: after ∧
      lookup o.containerListHead 1 = some { cid := 1, threadList := [4, 6] ++ [5] } ∧
      ([4, 6] ++ [5]).head? = [4, 6].head? ∧
      suspends o.trace = true ∧ wakes o.trace = [] :=
  ⟨by decide, create_join_existing [⟨7, [3]⟩, ⟨1, [4, 6]⟩] ⟨1, 0⟩ 5 ⟨1, [4, 6]⟩
    (by decide) (by decide)⟩

/-! ## Yield -/

/-- C3. Yield by the front `p` of a container with queue `p :: q :: tail`, the first
container of the directory whose front is `p`, every container ahead of it having a
member: the verb returns, the container has queue `q :: tail ++ [p]`, nothing else in
the directory moved, and the trace is: take and release the list lock, wake `q`, then
sleep. So exactly `q` is woken, and the wake comes before the caller suspends. -/
theorem switch_rotates (walked rest : List container) (c : Nat) (p q : Pid)
    (tail : List Pid) (cmd : processor_container_cmd)
    (hne : ∀ y ∈ walked, y.threadList ≠ [])
    (hfront : ∀ y ∈ walked, y.threadList.head? ≠ some p) :
    ∃ o, processor_container_switch (walked ++ ⟨c, p :: q :: tail⟩ :: rest) (some cmd) p
        = .ok o ∧
      o.containerListHead = walked ++ ⟨c, q :: tail ++ [p]⟩ :: rest ∧
      o.trace = [.mutex_lock_list, .mutex_unlock_list, .wake_up_process q, .schedule] ∧
      wakes o.trace = [q] ∧ suspends o.trace = true := by
  have hfind := switch_findContainer_first p walked ⟨c, p :: q :: tail⟩ rest (q :: tail)
    rfl hne hfront
  exact ⟨_, switch_of_found _ cmd p walked rest _ p q tail hfind rfl, rfl, rfl, rfl, rfl⟩

theorem switch_rotates_witness :
    (∀ y ∈ ([⟨7, [3]⟩] : List container), y.threadList ≠ []) ∧
    ∃ o, processor_container_switch ([⟨7, [3]⟩] ++ ⟨1, 4 :: 6 :: [8]⟩ :: []) (some ⟨0, 0⟩) 4
        = .ok o ∧
      o.containerListHead = [⟨7, [3]⟩] ++ ⟨1, 6 :: [8] ++ [4]⟩ :: [] ∧
      o.trace = [.mutex_lock_list, .mutex_unlock_list, .wake_up_process 6, .schedule] ∧
      wakes o.trace = [6] ∧ suspends o.trace = true :=
  ⟨by decide, switch_rotates [⟨7, [3]⟩] [] 1 4 6 [8] ⟨0, 0⟩ (by decide) (by decide)⟩

/-- The walk of Yield reads the front of every container it passes: a container without a
member ahead of the caller's one (a state no verb produces) makes it dereference `NULL`. -/
theorem switch_behind_empty_container_faults :
    processor_container_switch [⟨7, []⟩, ⟨1, [4, 6]⟩] (some ⟨0, 0⟩) 4
      = .error .null_dereference := by
  rfl

/-- C5. Yield by `p` when the first container of the directory whose front is `p` has `p`
as its only member, every container ahead of it having a member: the verb returns, the
whole directory is as it was, nobody is woken and the caller does not sleep. -/
theorem switch_alone (walked rest : List container) (c : Nat) (p : Pid)
    (cmd : processor_container_cmd)
    (hne : ∀ y ∈ walked, y.threadList ≠ [])
    (hfront : ∀ y ∈ walked, y.threadList.head? ≠ some p) :
    ∃ o, processor_container_switch (walked ++ ⟨c, [p]⟩ :: rest) (some cmd) p = .ok o ∧
      o.containerListHead = walked ++ ⟨c, [p]⟩ :: rest ∧
      wakes o.trace = [] ∧ suspends o.trace = false := by
  have hfind := switch_findContainer_first p walked ⟨c, [p]⟩ rest [] rfl hne hfront
  exact ⟨_, switch_of_alone _ cmd p walked rest _ p hfind rfl, rfl, rfl, rfl⟩

theorem switch_alone_witness :
    (∀ y ∈ ([⟨7, [3, 4]⟩] : List container), y.threadList ≠ []) ∧
    ∃ o, processor_container_switch ([⟨7, [3, 4]⟩] ++ ⟨1, [4]⟩ :: [⟨2, [4, 9]⟩])
        (some ⟨0, 0⟩) 4 = .ok o ∧
      o.containerListHead = [⟨7, [3, 4]⟩] ++ ⟨1, [4]⟩ :: [⟨2, [4, 9]⟩] ∧
      wakes o.trace = [] ∧ suspends o.trace = false :=
  ⟨by decide, switch_alone [⟨7, [3, 4]⟩] [⟨2, [4, 9]⟩] 1 4 ⟨0, 0⟩ (by decide) (by decide)⟩

/-! ## Leave -/

/-- The walk over a thread list stops at the first entry of the caller, when there is one. -/
theorem delete_findThread_mem (p : Pid) (l : List Pid) (hp : p ∈ l) :
    ∃ tp tn, delete_findThread p l = .ok (tp, p, tn) ∧ l = tp ++ p :: tn ∧
      l.erase p = tp ++ tn ∧ p ∉ tp := by
  induction l with
  | nil => simp at hp
  | cons a as ih =>
    by_cases ha : a = p
    · subst ha
      exact ⟨[], as, by simp [delete_findThread], rfl, by simp, by simp⟩
    · have hp2 : p ∈ as := by
        rcases List.mem_cons.1 hp with h | h
        · exact absurd h.symm ha
        · exact h
      obtain ⟨tp, tn, h1, h2, h3, h4⟩ := ih hp2
      refine ⟨a :: tp, tn, by simp [delete_findThread, ha, h1], by simp [h2], ?_, ?_⟩
      · rw [List.erase_cons_tail (by simpa using ha), h3]
        rfl
      · simp only [List.mem_cons, not_or]
        exact ⟨fun h => ha h.symm, h4⟩

/-- C6. Leave by a member `p` that is not the front of the container the directory holds
for the requested id (the front is `f ≠ p`, and `p` is among the others): the verb
returns, the queue is the old one without the entry of `p` (its first one behind the
front), so the front and the order of those who stay are as before; nothing else in the
directory moved, nobody is woken and the caller does not sleep. -/
theorem delete_nonfront_member (registry : Registry) (cmd : processor_container_cmd)
    (p f : Pid) (tail : List Pid) (x : container)
    (hfound : lookup registry cmd.cid = some x) (hq : x.threadList = f :: tail)
    (hf : f ≠ p) (hp : p ∈ tail) :
    ∃ o before after, processor_container_delete registry (some cmd) p = .ok o ∧
      registry = before ++ x :: after ∧
      o.containerListHead = before ++ ⟨cmd.cid, f :: tail.erase p⟩ :: after ∧
      lookup o.containerListHead cmd.cid = some ⟨cmd.cid, f :: tail.erase p⟩ ∧
      List.Sublist (f :: tail.erase p) (f :: tail) ∧
      wakes o.trace = [] ∧ suspends o.trace = false := by
  obtain ⟨hx, before, after, hreg, hb⟩ := lookup_eq_some registry cmd.cid x hfound
  have hfind : delete_findContainer cmd.cid registry = .ok (before, x, after) :=
    hreg ▸ delete_findContainer_first cmd.cid before x after hx hb
  obtain ⟨tp, tn, h1, _, h3, _⟩ := delete_findThread_mem p tail hp
  have ht : delete_findThread p x.threadList = .ok (f :: tp, p, tn) := by
    simp [hq, delete_findThread, hf, h1]
  have heq := delete_of_inner registry cmd p before after x (f :: tp) tn p hfind ht (by simp)
  rw [hx, List.cons_append, ← h3] at heq
  refine ⟨_, before, after, heq, hreg, rfl, ?_, ?_, rfl, rfl⟩
  · exact lookup_first _ before _ after rfl hb
  · exact List.Sublist.cons₂ f (List.erase_sublist p tail)

theorem delete_nonfront_member_witness :
    lookup [⟨7, [3]⟩, ⟨1, [4, 6, 5, 8]⟩] (⟨1, 0⟩ : processor_container_cmd).cid
      = some ⟨1, [4, 6, 5, 8]⟩ ∧
    ∃ o before after,
      processor_container_delete [⟨7, [3]⟩, ⟨1, [4, 6, 5, 8]⟩] (some ⟨1, 0⟩) 5 = .ok o ∧
      [⟨7, [3]⟩, ⟨1, [4, 6, 5, 8]⟩] = before ++ (⟨1, [4, 6, 5, 8]⟩ : container) :: after ∧
      o.containerListHead = before ++ ⟨1, 4 :: [6, 5, 8].erase 5⟩ :: after ∧
      lookup o.containerListHead 1 = some ⟨1, 4 :: [6, 5, 8].erase 5⟩ ∧
      List.Sublist (4 :: [6, 5, 8].erase 5) (4 :: [6, 5, 8]) ∧
      wakes o.trace = [] ∧ suspends o.trace = false :=
  ⟨by decide, delete_nonfront_member [⟨7, [3]⟩, ⟨1, [4, 6, 5, 8]⟩] ⟨1, 0⟩ 5 4 [6, 5, 8]
    ⟨1, [4, 6, 5, 8]⟩ (by decide) rfl (by decide) (by decide)⟩

/-- C7. Leave by the front `p` of the container the directory holds for the requested id,
whose queue is `p :: q :: tail`: the verb returns, the container stays in the directory
with queue `q :: tail`, nothing else moved, exactly `q` is woken and the caller does not
sleep. -/
theorem delete_front_member (registry : Registry) (cmd : processor_container_cmd)
    (p q : Pid) (tail : List Pid) (x : container)
    (hfound : lookup registry cmd.cid = some x) (hq : x.threadList = p :: q :: tail) :
    ∃ o before after, processor_container_delete registry (some cmd) p = .ok o ∧
      registry = before ++ x :: after ∧
      o.containerListHead = before ++ ⟨cmd.cid, q :: tail⟩ :: after ∧
      lookup o.containerListHead cmd.cid = some ⟨cmd.cid, q :: tail⟩ ∧
      wakes o.trace = [q] ∧ suspends o.trace = false := by
  obtain ⟨hx, before, after, hreg, hb⟩ := lookup_eq_some registry cmd.cid x hfound
  have hfind : delete_findContainer cmd.cid registry = .ok (before, x, after) :=
    hreg ▸ delete_findContainer_first cmd.cid before x after hx hb
  have ht : delete_findThread p x.threadList = .ok ([], p, q :: tail) := by
    simp [hq, delete_findThread]
  have heq := delete_of_front registry cmd p before after x tail p q hfind ht
  rw [hx] at heq
  refine ⟨_, before, after, heq, hreg, rfl, ?_, rfl, rfl⟩
  exact lookup_first _ before _ after rfl hb

theorem delete_front_member_witness :
    lookup [⟨7, [3]⟩, ⟨1, [4, 6, 5]⟩] (⟨1, 0⟩ : processor_container_cmd).cid
      = some ⟨1, [4, 6, 5]⟩ ∧
    ∃ o before after,
      processor_container_delete [⟨7, [3]⟩, ⟨1, [4, 6, 5]⟩] (some ⟨1, 0⟩) 4 = .ok o ∧
      [⟨7, [3]⟩, ⟨1, [4, 6, 5]⟩] = before ++ (⟨1, [4, 6, 5]⟩ : container) :: after ∧
      o.containerListHead = before ++ ⟨1, 6 :: [5]⟩ :: after ∧
      lookup o.containerListHead 1 = some ⟨1, 6 :: [5]⟩ ∧
      wakes o.trace = [6] ∧ suspends o.trace = false :=
  ⟨by decide, delete_front_member [⟨7, [3]⟩, ⟨1, [4, 6, 5]⟩] ⟨1, 0⟩ 4 6 [5]
    ⟨1, [4, 6, 5]⟩ (by decide) rfl⟩

/-- C8. Leave by the only member `p` of the one container the directory holds for the
requested id: the verb returns, the container is gone (no container of the directory has
that id any more) and the others are as before, nobody is woken and the caller does not
sleep. A Create-or-Join on that id by any caller `r` then goes as for a fresh id: it
returns, the directory holds for the id a container with queue `[r]`, added last, and
`r` does not sleep and wakes nobody. -/
theorem delete_last_member (before after : List container)
    (cmd : processor_container_cmd) (p : Pid)
    (hb : ∀ y ∈ before, y.cid ≠ cmd.cid) (ha : ∀ y ∈ after, y.cid ≠ cmd.cid) :
    ∃ o, processor_container_delete (before ++ ⟨cmd.cid, [p]⟩ :: after) (some cmd) p = .ok o ∧
      o.containerListHead = before ++ after ∧
      (∀ y ∈ o.containerListHead, y.cid ≠ cmd.cid) ∧
      lookup o.containerListHead cmd.cid = none ∧
      wakes o.trace = [] ∧ suspends o.trace = false ∧
      ∀ (r : Pid) (cmd2 : processor_container_cmd), cmd2.cid = cmd.cid →
        ∃ o2, processor_container_create o.containerListHead (some cmd2) r = .ok o2 ∧
          o2.containerListHead = before ++ after ++ [⟨cmd.cid, [r]⟩] ∧
          lookup o2.containerListHead cmd.cid = some ⟨cmd.cid, [r]⟩ ∧
          suspends o2.trace = false ∧ wakes o2.trace = [] := by
  have hfind := delete_findContainer_first cmd.cid before ⟨cmd.cid, [p]⟩ after rfl hb
  have ht : delete_findThread p (⟨cmd.cid, [p]⟩ : container).threadList = .ok ([], p, []) := by
    simp [delete_findThread]
  have heq := delete_of_last _ cmd p before after ⟨cmd.cid, [p]⟩ p hfind ht
  have hall : ∀ y ∈ before ++ after, y.cid ≠ cmd.cid := by
    intro y hy
    rcases List.mem_append.1 hy with h | h
    · exact hb y h
    · exact ha y h
  refine ⟨_, heq, rfl, hall, lookup_eq_none _ _ hall, rfl, rfl, ?_⟩
  intro r cmd2 hc
  have hall2 : ∀ y ∈ before ++ after, y.cid ≠ cmd2.cid := hc ▸ hall
  have hcr := create_of_absent (before ++ after) cmd2 r
    (create_findContainer_none cmd2.cid _ hall2)
  rw [hc] at hcr
  refine ⟨_, hcr, rfl, ?_, rfl, rfl⟩
  exact lookup_first cmd.cid (before ++ after) _ [] rfl hall

theorem delete_last_member_witness :
    (∀ y ∈ ([⟨7, [3]⟩] : List container), y.cid ≠ (⟨1, 0⟩ : processor_container_cmd).cid) ∧
    ∃ o, processor_container_delete ([⟨7, [3]⟩] ++ ⟨1, [4]⟩ :: [⟨2, [9]⟩]) (some ⟨1, 0⟩) 4
        = .ok o ∧
      o.containerListHead = [⟨7, [3]⟩] ++ [⟨2, [9]⟩] ∧
      (∀ y ∈ o.containerListHead, y.cid ≠ 1) ∧
      lookup o.containerListHead 1 = none ∧
      wakes o.trace = [] ∧ suspends o.trace = false ∧
      ∀ (r : Pid) (cmd2 : processor_container_cmd), cmd2.cid = 1 →
        ∃ o2, processor_container_create o.containerListHead (some cmd2) r = .ok o2 ∧
          o2.containerListHead = [⟨7, [3]⟩] ++ [⟨2, [9]⟩] ++ [⟨1, [r]⟩] ∧
          lookup o2.containerListHead 1 = some ⟨1, [r]⟩ ∧
          suspends o2.trace = false ∧ wakes o2.trace = [] :=
  ⟨by decide, delete_last_member [⟨7, [3]⟩] [⟨2, [9]⟩] ⟨1, 0⟩ 4 (by decide) (by decide)⟩

/-! ## Round robin -/

theorem frontAt_length (walked rest : List container) (x : container) :
    frontAt (walked ++ x :: rest) walked.length = x.threadList.head? := by
  have h : (walked ++ x :: rest)[walked.length]? = some x := by
    rw [List.getElem?_append_right (Nat.le_refl _)]
    simp
  simp only [frontAt, h]

/-- One Yield by the front of a queue `f :: t` leaves the queue `t ++ [f]`. -/
theorem switch_by_front (walked rest : List container) (c : Nat) (f : Pid) (t : List Pid)
    (cmd : processor_container_cmd)
    (hne : ∀ y ∈ walked, y.threadList ≠ [])
    (hfront : ∀ y ∈ walked, y.threadList.head? ≠ some f) :
    ∃ o, processor_container_switch (walked ++ ⟨c, f :: t⟩ :: rest) (some cmd) f = .ok o ∧
      o.containerListHead = walked ++ ⟨c, t ++ [f]⟩ :: rest := by
  have hfind := switch_findContainer_first f walked ⟨c, f :: t⟩ rest t rfl hne hfront
  cases t with
  | nil => exact ⟨_, switch_of_alone _ cmd f walked rest _ f hfind rfl, rfl⟩
  | cons n t2 => exact ⟨_, switch_of_found _ cmd f walked rest _ f n t2 hfind rfl, rfl⟩

theorem yields_rotate (walked rest : List container) (c : Nat)
    (cmd : processor_container_cmd) (hne : ∀ y ∈ walked, y.threadList ≠ []) (k : Nat) :
    ∀ queue : List Pid, queue ≠ [] →
      (∀ y ∈ walked, ∀ m ∈ queue, y.threadList.head? ≠ some m) →
      yields cmd walked.length k (walked ++ ⟨c, queue⟩ :: rest)
        = some (walked ++ ⟨c, queue.rotate k⟩ :: rest) := by
  induction k with
  | zero => intro queue _ _; simp [yields]
  | succ k ih =>
    intro queue hq hfront
    cases queue with
    | nil => exact absurd rfl hq
    | cons f t =>
      obtain ⟨o, ho, hreg⟩ := switch_by_front walked rest c f t cmd hne
        (fun y hy => hfront y hy f (List.mem_cons_self _ _))
      have hnext := ih (t ++ [f]) (by simp) (by
        intro y hy m hm
        apply hfront y hy m
        rcases List.mem_append.1 hm with h | h
        · exact List.mem_cons_of_mem _ h
        · rw [List.mem_singleton.1 h]
          exact List.mem_cons_self _ _)
      rw [yields, frontAt_length]
      simp only [List.head?_cons, ho, hreg, hnext, List.rotate_cons_succ]

/-- C4. Round robin on a container with members `ms` (at least one), in join order, no
member being the front of a container ahead of it in the directory and those containers
having a member each: `k` successive Yields, each issued by the member at the front at
that moment, all return and leave the queue rotated left by `k mod n`, the rest of the
directory as it was; the member then in front (running) is number `k mod n` in join
order; and after `n` Yields the directory is the original one. Distinctness of the
members is not needed for this. -/
theorem round_robin (walked rest : List container) (c : Nat) (ms : List Pid)
    (cmd : processor_container_cmd) (k : Nat) (hms : ms ≠ [])
    (hne : ∀ y ∈ walked, y.threadList ≠ [])
    (hfront : ∀ y ∈ walked, ∀ m ∈ ms, y.threadList.head? ≠ some m) :
    yields cmd walked.length k (walked ++ ⟨c, ms⟩ :: rest)
        = some (walked ++ ⟨c, ms.rotate (k % ms.length)⟩ :: rest) ∧
      frontAt (walked ++ ⟨c, ms.rotate (k % ms.length)⟩ :: rest) walked.length
        = ms[k % ms.length]? ∧
      ms[k % ms.length]? ≠ none ∧
      yields cmd walked.length ms.length (walked ++ ⟨c, ms⟩ :: rest)
        = some (walked ++ ⟨c, ms⟩ :: rest) := by
  have hpos : 0 < ms.length := List.length_pos.2 hms
  have hlt : k % ms.length < ms.length := Nat.mod_lt _ hpos
  refine ⟨?_, ?_, ?_, ?_⟩
  · rw [List.rotate_mod]
    exact yields_rotate walked rest c cmd hne k ms hms hfront
  · rw [frontAt_length]
    exact List.head?_rotate hlt
  · simp [hlt]
  · have h := yields_rotate walked rest c cmd hne ms.length ms hms hfront
    rwa [List.rotate_length] at h

theorem round_robin_witness :
    (∀ y ∈ ([⟨7, [3]⟩] : List container), y.threadList ≠ []) ∧
    (yields ⟨0, 0⟩ ([⟨7, [3]⟩] : List container).length 5 ([⟨7, [3]⟩] ++ ⟨1, [4, 5, 6]⟩ :: [])
        = some ([⟨7, [3]⟩] ++ ⟨1, [4, 5, 6].rotate (5 % [4, 5, 6].length)⟩ :: []) ∧
      frontAt ([⟨7, [3]⟩] ++ ⟨1, [4, 5, 6].rotate (5 % [4, 5, 6].length)⟩ :: [])
          ([⟨7, [3]⟩] : List container).length
        = [4, 5, 6][5 % [4, 5, 6].length]? ∧
      [4, 5, 6][5 % [4, 5, 6].length]? ≠ none ∧
      yields ⟨0, 0⟩ ([⟨7, [3]⟩] : List container).length [4, 5, 6].length
          ([⟨7, [3]⟩] ++ ⟨1, [4, 5, 6]⟩ :: [])
        = some ([⟨7, [3]⟩] ++ ⟨1, [4, 5, 6]⟩ :: [])) :=
  ⟨by decide, round_robin [⟨7, [3]⟩] [] 1 [4, 5, 6] ⟨0, 0⟩ 5 (by decide) (by decide)
    (by decide)⟩

/-! ## A run of two callers -/

/-- C9. From the empty directory, with two distinct callers `A` and `B` and container id
1: `A` joins, the queue is `[A]` and `A` runs; `B` joins, the queue is `[A, B]`, `A` runs
and `B` sleeps; `A` yields, the queue is `[B, A]`, `B` was woken and runs, `A` sleeps; `B`
leaves, the queue is `[A]`, `A` was woken and runs; `A` leaves, the directory is empty, so
it holds no container with id 1. Every verb of the run returns. -/
theorem scenario_two_callers (A B : Pid) (hAB : A ≠ B) (op : Nat) :
    ∃ o1 o2 o3 o4 o5 : Outcome,
      let cmd : processor_container_cmd := ⟨1, op⟩
      let s1 := System.init.after A o1
      let s2 := s1.after B o2
      let s3 := s2.after A o3
      let s4 := s3.after B o4
      let s5 := s4.after A o5
      processor_container_create System.init.containerListHead (some cmd) A = .ok o1 ∧
      s1.containerListHead = [⟨1, [A]⟩] ∧ s1.suspended A = false ∧
      processor_container_create s1.containerListHead (some cmd) B = .ok o2 ∧
      s2.containerListHead = [⟨1, [A, B]⟩] ∧
      s2.suspended A = false ∧ s2.suspended B = true ∧
      processor_container_switch s2.containerListHead (some cmd) A = .ok o3 ∧
      s3.containerListHead = [⟨1, [B, A]⟩] ∧ wakes o3.trace = [B] ∧
      s3.suspended B = false ∧ s3.suspended A = true ∧
      processor_container_delete s3.containerListHead (some cmd) B = .ok o4 ∧
      s4.containerListHead = [⟨1, [A]⟩] ∧ wakes o4.trace = [A] ∧
      s4.suspended A = false ∧
      processor_container_delete s4.containerListHead (some cmd) A = .ok o5 ∧
      s5.containerListHead = [] ∧ lookup s5.containerListHead 1 = none := by
  have hBA : B ≠ A := fun h => hAB h.symm
  refine ⟨⟨[⟨1, [A]⟩], [.mutex_lock_list, .mutex_unlock_list], 0⟩,
    ⟨[⟨1, [A, B]⟩], [.mutex_lock_list, .mutex_unlock_list, .mutex_lock_container 1,
      .mutex_unlock_container 1, .schedule], 0⟩,
    ⟨[⟨1, [B, A]⟩], [.mutex_lock_list, .mutex_unlock_list, .wake_up_process B,
      .schedule], 0⟩,
    ⟨[⟨1, [A]⟩], [.mutex_lock_list, .mutex_unlock_list, .mutex_lock_container 1,
      .wake_up_process A, .mutex_unlock_container 1], 0⟩,
    ⟨[], [.mutex_lock_list, .mutex_unlock_list, .mutex_lock_container 1,
      .mutex_lock_list, .mutex_unlock_list, .mutex_unlock_container 1], 0⟩, ?_⟩
  simp [System.after, System.init, note, processor_container_create, create_findContainer,
    processor_container_switch, switch_findContainer, processor_container_delete,
    delete_findContainer, delete_findThread, wakes, lookup, hAB, hBA]

theorem scenario_two_callers_witness :
    (10 : Pid) ≠ 20 ∧
    ∃ o1 o2 o3 o4 o5 : Outcome,
      let cmd : processor_container_cmd := ⟨1, 0⟩
      let s1 := System.init.after 10 o1
      let s2 := s1.after 20 o2
      let s3 := s2.after 10 o3
      let s4 := s3.after 20 o4
      let s5 := s4.after 10 o5
      processor_container_create System.init.containerListHead (some cmd) 10 = .ok o1 ∧
      s1.containerListHead = [⟨1, [10]⟩] ∧ s1.suspended 10 = false ∧
      processor_container_create s1.containerListHead (some cmd) 20 = .ok o2 ∧
      s2.containerListHead = [⟨1, [10, 20]⟩] ∧
      s2.suspended 10 = false ∧ s2.suspended 20 = true ∧
      processor_container_switch s2.containerListHead (some cmd) 10 = .ok o3 ∧
      s3.containerListHead = [⟨1, [20, 10]⟩] ∧ wakes o3.trace = [20] ∧
      s3.suspended 20 = false ∧ s3.suspended 10 = true ∧
      processor_container_delete s3.containerListHead (some cmd) 20 = .ok o4 ∧
      s4.containerListHead = [⟨1, [10]⟩] ∧ wakes o4.trace = [10] ∧
      s4.suspended 10 = false ∧
      processor_container_delete s4.containerListHead (some cmd) 10 = .ok o5 ∧
      s5.containerListHead = [] ∧ lookup s5.containerListHead 1 = none :=
  ⟨by decide, scenario_two_callers 10 20 (by decide) 0⟩

/-! ## One running member per container -/

theorem members_append (a b : Registry) : members (a ++ b) = members a ++ members b := by
  induction a with
  | nil => rfl
  | cons x xs ih => simp [members, ih]

theorem members_split (b a : List container) (x : container) :
    members (b ++ x :: a) = members b ++ (x.threadList ++ members a) := by
  simp [members_append, members]

theorem mem_members (p : Pid) (registry : Registry) :
    p ∈ members registry ↔ ∃ x ∈ registry, p ∈ x.threadList := by
  induction registry with
  | nil => simp [members]
  | cons x xs ih => simp [members, ih]

theorem lookup_none_imp (registry : Registry) (cid : Nat) (h : lookup registry cid = none) :
    ∀ y ∈ registry, y.cid ≠ cid := by
  induction registry with
  | nil => simp
  | cons x xs ih =>
    by_cases hx : x.cid = cid
    · simp [lookup, hx] at h
    · have h2 : lookup xs cid = none := by simpa [lookup, hx] using h
      intro y hy
      rcases List.mem_cons.1 hy with hy | hy
      · exact hy ▸ hx
      · exact ih h2 y hy

/-- Either no container has `p` in front, or there is a first one that has. -/
theorem front_split (registry : Registry) (p : Pid) :
    (∀ y ∈ registry, y.threadList.head? ≠ some p) ∨
    ∃ walked x rest t, registry = walked ++ x :: rest ∧ x.threadList = p :: t ∧
      ∀ y ∈ walked, y.threadList.head? ≠ some p := by
  induction registry with
  | nil => left; simp
  | cons a as ih =>
    by_cases ha : a.threadList.head? = some p
    · right
      cases hq : a.threadList with
      | nil => simp [hq] at ha
      | cons f t =>
        have hf : f = p := by simpa [hq] using ha
        exact ⟨[], a, as, t, rfl, by rw [hq, hf], by simp⟩
    · rcases ih with h | ⟨walked, x, rest, t, h1, h2, h3⟩
      · left
        intro y hy
        rcases List.mem_cons.1 hy with hy | hy
        · exact hy ▸ ha
        · exact h y hy
      · right
        refine ⟨a :: walked, x, rest, t, by simp [h1], h2, ?_⟩
        intro y hy
        rcases List.mem_cons.1 hy with hy | hy
        · exact hy ▸ ha
        · exact h3 y hy

/-- A task of another container is not in this one, when no task has two entries. -/
theorem not_mem_other (b a : List container) (x : container)
    (h : (members (b ++ x :: a)).Nodup) (y : container) (hy : y ∈ b ++ a) (q : Pid)
    (hq : q ∈ y.threadList) : q ∉ x.threadList := by
  rw [members_split] at h
  have h1 := List.nodup_append.1 h
  have h2 := List.nodup_append.1 h1.2.1
  intro hqx
  rcases List.mem_append.1 hy with hy | hy
  · exact h1.2.2 ((mem_members q b).2 ⟨y, hy, hq⟩) (List.mem_append_left _ hqx)
  · exact h2.2.2 hqx ((mem_members q a).2 ⟨y, hy, hq⟩)

theorem queue_nodup (b a : List container) (x : container)
    (h : (members (b ++ x :: a)).Nodup) : x.threadList.Nodup := by
  rw [members_split] at h
  exact (List.nodup_append.1 (List.nodup_append.1 h).2.1).1

/-- Replacing the queue of one container keeps the state consistent, when the new queue is
well placed and the run states of the other containers are untouched. -/
theorem consistent_replace (b a : List container) (x : container) (newq : List Pid)
    (susp susp2 : Pid → Bool)
    (h : Consistent ⟨b ++ x :: a, susp⟩) (hq : newq ≠ [])
    (hnodup : (members (b ++ ⟨x.cid, newq⟩ :: a)).Nodup)
    (hother : ∀ y ∈ b ++ a, ∀ q ∈ y.threadList, susp2 q = susp q)
    (hx : ∀ f t, newq = f :: t → susp2 f = false ∧ ∀ q ∈ t, susp2 q = true) :
    Consistent ⟨b ++ ⟨x.cid, newq⟩ :: a, susp2⟩ := by
  obtain ⟨h1, h2, _, h4⟩ := h
  have hsplit : ∀ y ∈ b ++ (⟨x.cid, newq⟩ : container) :: a,
      y = ⟨x.cid, newq⟩ ∨ y ∈ b ++ a := by
    intro y hy
    simp only [List.mem_append, List.mem_cons] at hy ⊢
    tauto
  have hold : ∀ y ∈ b ++ a, y ∈ b ++ x :: a := by
    intro y hy
    simp only [List.mem_append, List.mem_cons] at hy ⊢
    tauto
  refine ⟨?_, ?_, hnodup, ?_⟩
  · intro y hy
    rcases hsplit y hy with hy | hy
    · rw [hy]; exact hq
    · exact h1 y (hold y hy)
  · simpa using h2
  · intro y hy f t hyq
    rcases hsplit y hy with hy | hy
    · subst hy
      exact hx f t hyq
    · have hy2 := hold y hy
      obtain ⟨hf, ht⟩ := h4 y hy2 f t hyq
      refine ⟨?_, ?_⟩
      · exact (hother y hy f (by rw [hyq]; exact List.mem_cons_self _ _)).trans hf
      · intro q hqt
        exact (hother y hy q (by rw [hyq]; exact List.mem_cons_of_mem _ hqt)).trans
          (ht q hqt)

theorem consistent_remove (b a : List container) (x : container) (susp : Pid → Bool)
    (h : Consistent ⟨b ++ x :: a, susp⟩) : Consistent ⟨b ++ a, susp⟩ := by
  obtain ⟨h1, h2, h3, h4⟩ := h
  have hold : ∀ y ∈ b ++ a, y ∈ b ++ x :: a := by
    intro y hy
    simp only [List.mem_append, List.mem_cons] at hy ⊢
    tauto
  have hsub : List.Sublist (b ++ a) (b ++ x :: a) :=
    List.Sublist.append (List.Sublist.refl b) (List.sublist_cons_self x a)
  refine ⟨fun y hy => h1 y (hold y hy), ?_, ?_, fun y hy => h4 y (hold y hy)⟩
  · exact List.Nodup.sublist (List.Sublist.map _ hsub) h2
  · have h5 : (members (b ++ x :: a)).Nodup := h3
    rw [members_split] at h5
    show (members (b ++ a)).Nodup
    rw [members_append]
    exact List.Nodup.sublist (List.Sublist.append (List.Sublist.refl _)
      (List.sublist_append_right _ _)) h5

theorem consistent_append (registry : Registry) (susp : Pid → Bool) (c : Nat) (p : Pid)
    (h : Consistent ⟨registry, susp⟩) (hc : ∀ y ∈ registry, y.cid ≠ c)
    (hp : ∀ y ∈ registry, p ∉ y.threadList) (hs : susp p = false) :
    Consistent ⟨registry ++ [⟨c, [p]⟩], susp⟩ := by
  obtain ⟨h1, h2, h3, h4⟩ := h
  have hsplit : ∀ y ∈ registry ++ [(⟨c, [p]⟩ : container)], y = ⟨c, [p]⟩ ∨ y ∈ registry := by
    intro y hy
    simp only [List.mem_append, List.mem_singleton] at hy
    tauto
  refine ⟨?_, ?_, ?_, ?_⟩
  · intro y hy
    rcases hsplit y hy with hy | hy
    · rw [hy]; simp
    · exact h1 y hy
  · show ((registry ++ [(⟨c, [p]⟩ : container)]).map container.cid).Nodup
    rw [List.map_append, List.nodup_append]
    refine ⟨h2, by simp, ?_⟩
    intro i hi hi2
    obtain ⟨y, hy, hyc⟩ := List.mem_map.1 hi
    have : i = c := by simpa using hi2
    exact hc y hy (hyc.trans this)
  · show (members (registry ++ [(⟨c, [p]⟩ : container)])).Nodup
    rw [members_append, List.nodup_append]
    refine ⟨h3, by simp [members], ?_⟩
    intro q hq hq2
    have hqp : q = p := by simpa [members] using hq2
    obtain ⟨y, hy, hyq⟩ := (mem_members q registry).1 hq
    exact hp y hy (hqp ▸ hyq)
  · intro y hy f t hyq
    rcases hsplit y hy with hy | hy
    · subst hy
      simp only [List.cons.injEq] at hyq
      obtain ⟨hf, ht⟩ := hyq
      subst hf
      subst ht
      exact ⟨hs, by simp⟩
    · exact h4 y hy f t hyq

theorem nodup_join (b a : List container) (x : container) (p : Pid)
    (h : (members (b ++ x :: a)).Nodup) (hp : p ∉ members (b ++ x :: a)) :
    (members (b ++ ⟨x.cid, x.threadList ++ [p]⟩ :: a)).Nodup := by
  rw [members_split] at h hp ⊢
  have heq : members b ++ ((x.threadList ++ [p]) ++ members a)
      = (members b ++ x.threadList) ++ p :: members a := by simp
  show (members b ++ ((x.threadList ++ [p]) ++ members a)).Nodup
  rw [heq]
  refine (List.perm_middle.nodup_iff).2 (List.nodup_cons.2 ⟨?_, ?_⟩)
  · simpa [List.append_assoc] using hp
  · simpa [List.append_assoc] using h

theorem nodup_rotate (b a : List container) (x : container) (f : Pid) (q : List Pid)
    (hx : x.threadList = f :: q) (h : (members (b ++ x :: a)).Nodup) :
    (members (b ++ ⟨x.cid, q ++ [f]⟩ :: a)).Nodup := by
  rw [members_split] at h ⊢
  rw [hx] at h
  exact ((List.Perm.append_left _
    (List.Perm.append_right _ (List.perm_append_singleton f q))).nodup_iff).2 h

theorem nodup_drop_front (b a : List container) (x : container) (f : Pid) (q : List Pid)
    (hx : x.threadList = f :: q) (h : (members (b ++ x :: a)).Nodup) :
    (members (b ++ ⟨x.cid, q⟩ :: a)).Nodup := by
  rw [members_split] at h ⊢
  rw [hx] at h
  exact List.Nodup.sublist (List.Sublist.append (List.Sublist.refl _)
    (List.Sublist.append (List.sublist_cons_self f q) (List.Sublist.refl _))) h

theorem consistent_init : Consistent System.init := by
  refine ⟨?_, ?_, ?_, ?_⟩ <;> simp [System.init, members]

theorem consistent_join (s : System) (user_cmd : Option processor_container_cmd) (p : Pid)
    (o : Outcome) (h : Consistent s) (hs : s.suspended p = false)
    (hfree : ∀ x ∈ s.containerListHead, p ∉ x.threadList)
    (ho : processor_container_create s.containerListHead user_cmd p = .ok o) :
    Consistent (s.after p o) := by
  obtain ⟨registry, susp⟩ := s
  simp only at hs hfree ho
  cases user_cmd with
  | none =>
    have ho2 : o = ⟨registry, [], 0⟩ := by
      simpa [processor_container_create] using ho.symm
    subst ho2
    exact h
  | some cmd =>
    cases hl : lookup registry cmd.cid with
    | none =>
      have hc := lookup_none_imp registry cmd.cid hl
      rw [create_of_absent registry cmd p (create_findContainer_none _ _ hc)] at ho
      have ho2 := (Except.ok.inj ho).symm
      subst ho2
      exact consistent_append registry susp cmd.cid p h hc hfree hs
    | some x =>
      obtain ⟨hx, b, a, hreg, hb⟩ := lookup_eq_some registry cmd.cid x hl
      subst hreg
      have hxmem : x ∈ b ++ x :: a := by simp
      cases hq : x.threadList with
      | nil => exact absurd hq (h.1 x hxmem)
      | cons f t =>
        rw [create_of_found _ cmd p b a x f t
          (create_findContainer_first cmd.cid b x a hx hb) hq] at ho
        have ho2 := (Except.ok.inj ho).symm
        subst ho2
        have hpx : p ∉ x.threadList := hfree x hxmem
        have hfp : f ≠ p := by
          intro hfp
          apply hpx
          rw [hq, hfp]
          exact List.mem_cons_self _ _
        have hrun := h.2.2.2 x hxmem f t hq
        have hmem : p ∉ members (b ++ x :: a) := by
          intro hm
          obtain ⟨y, hy, hyp⟩ := (mem_members p _).1 hm
          exact hfree y hy hyp
        have hnd := nodup_join b a x p h.2.2.1 hmem
        rw [hq] at hnd
        refine consistent_replace b a x (f :: t ++ [p]) susp
          (fun z => if z = p then true else susp z) h (by simp) hnd ?_ ?_
        · intro y hy q hqy
          have hqp : q ≠ p := by
            intro hqp
            apply hfree y _ (hqp ▸ hqy)
            simp only [List.mem_append, List.mem_cons] at hy ⊢
            tauto
          simp [hqp]
        · intro f2 t2 heq
          simp only [List.cons_append, List.cons.injEq] at heq
          obtain ⟨hf2, ht2⟩ := heq
          subst hf2
          subst ht2
          refine ⟨by simpa [hfp] using hrun.1, ?_⟩
          intro q hqt
          by_cases hqp : q = p
          · simp [hqp]
          · have hq2 : q ∈ t := by
              rcases List.mem_append.1 hqt with h1 | h1
              · exact h1
              · exact absurd (List.mem_singleton.1 h1) hqp
            simpa [hqp] using hrun.2 q hq2

theorem consistent_yield (s : System) (user_cmd : Option processor_container_cmd) (p : Pid)
    (o : Outcome) (h : Consistent s)
    (ho : processor_container_switch s.containerListHead user_cmd p = .ok o) :
    Consistent (s.after p o) := by
  obtain ⟨registry, susp⟩ := s
  simp only at ho
  cases user_cmd with
  | none =>
    have ho2 : o = ⟨registry, [], 0⟩ := by
      simpa [processor_container_switch] using ho.symm
    subst ho2
    exact h
  | some cmd =>
    rcases front_split registry p with hno | ⟨w, x, r, t, hreg, hq, hw⟩
    · rw [switch_of_absent registry cmd p (switch_findContainer_none p registry h.1 hno)] at ho
      have ho2 := (Except.ok.inj ho).symm
      subst ho2
      exact h
    · subst hreg
      have hxmem : x ∈ w ++ x :: r := by simp
      have hfind := switch_findContainer_first p w x r t hq
        (fun y hy => h.1 y (List.mem_append_left _ hy)) hw
      cases t with
      | nil =>
        rw [switch_of_alone _ cmd p w r x p hfind hq] at ho
        have ho2 := (Except.ok.inj ho).symm
        subst ho2
        exact h
      | cons n t2 =>
        rw [switch_of_found _ cmd p w r x p n t2 hfind hq] at ho
        have ho2 := (Except.ok.inj ho).symm
        subst ho2
        have hrun := h.2.2.2 x hxmem p (n :: t2) hq
        have hqnd := queue_nodup w r x h.2.2.1
        rw [hq] at hqnd
        have hpn : n ≠ p := by
          intro hnp
          have := (List.nodup_cons.1 hqnd).1
          apply this
          rw [hnp]
          exact List.mem_cons_self _ _
        have hnt : n ∉ t2 := (List.nodup_cons.1 (List.nodup_cons.1 hqnd).2).1
        have hnd := nodup_rotate w r x p (n :: t2) hq h.2.2.1
        refine consistent_replace w r x (n :: t2 ++ [p]) susp
          (fun z => if z = p then true else if z = n then false else susp z)
          h (by simp) hnd ?_ ?_
        · intro y hy q hqy
          have hqx := not_mem_other w r x h.2.2.1 y hy q hqy
          rw [hq] at hqx
          have hqp : q ≠ p := fun e => hqx (e ▸ List.mem_cons_self _ _)
          have hqn : q ≠ n := fun e =>
            hqx (e ▸ List.mem_cons_of_mem _ (List.mem_cons_self _ _))
          simp [hqp, hqn]
        · intro f2 t3 heq
          simp only [List.cons_append, List.cons.injEq] at heq
          obtain ⟨hf2, ht3⟩ := heq
          subst hf2
          subst ht3
          refine ⟨by simp [hpn], ?_⟩
          intro q hqt
          by_cases hqp : q = p
          · simp [hqp]
          · have hq2 : q ∈ t2 := by
              rcases List.mem_append.1 hqt with h1 | h1
              · exact h1
              · exact absurd (List.mem_singleton.1 h1) hqp
            have hqn : q ≠ n := fun e => hnt (e ▸ hq2)
            simpa [hqp, hqn] using hrun.2 q (List.mem_cons_of_mem _ hq2)

theorem consistent_leave (s : System) (user_cmd : Option processor_container_cmd) (p : Pid)
    (o : Outcome) (h : Consistent s) (hs : s.suspended p = false)
    (hown : ∀ cmd, user_cmd = some cmd →
      ∃ x ∈ s.containerListHead, x.cid = cmd.cid ∧ p ∈ x.threadList)
    (ho : processor_container_delete s.containerListHead user_cmd p = .ok o) :
    Consistent (s.after p o) := by
  obtain ⟨registry, susp⟩ := s
  simp only at hs hown ho
  cases user_cmd with
  | none =>
    have ho2 : o = ⟨registry, [], 0⟩ := by
      simpa [processor_container_delete] using ho.symm
    subst ho2
    exact h
  | some cmd =>
    obtain ⟨x0, hx0, hc0, hp0⟩ := hown cmd rfl
    cases hl : lookup registry cmd.cid with
    | none => exact absurd hc0 (lookup_none_imp registry cmd.cid hl x0 hx0)
    | some x =>
      obtain ⟨hx, b, a, hreg, hb⟩ := lookup_eq_some registry cmd.cid x hl
      subst hreg
      have hxmem : x ∈ b ++ x :: a := by simp
      have hids : (List.map container.cid (b ++ x :: a)).Nodup := h.2.1
      have hx0x : x0 = x := by
        simp only [List.mem_append, List.mem_cons] at hx0
        rcases hx0 with h1 | h1 | h1
        · exact absurd hc0 (hb x0 h1)
        · exact h1
        · exfalso
          rw [List.map_append, List.map_cons] at hids
          have h2 := (List.nodup_cons.1 (List.nodup_append.1 hids).2.1).1
          apply h2
          exact List.mem_map.2 ⟨x0, h1, hc0.trans hx.symm⟩
      subst hx0x
      cases hq : x0.threadList with
      | nil => exact absurd hq (h.1 x0 hxmem)
      | cons f t =>
        have hrun := h.2.2.2 x0 hxmem f t hq
        have hpf : f = p := by
          rw [hq] at hp0
          rcases List.mem_cons.1 hp0 with h1 | h1
          · exact h1.symm
          · have : susp p = true := hrun.2 p h1
            rw [hs] at this
            exact absurd this (by simp)
        subst hpf
        have hfind := delete_findContainer_first cmd.cid b x0 a hx hb
        have ht : delete_findThread f x0.threadList = .ok ([], f, t) := by
          simp [hq, delete_findThread]
        cases t with
        | nil =>
          rw [delete_of_last _ cmd f b a x0 f hfind ht] at ho
          have ho2 := (Except.ok.inj ho).symm
          subst ho2
          exact consistent_remove b a x0 susp h
        | cons n t2 =>
          rw [delete_of_front _ cmd f b a x0 t2 f n hfind ht] at ho
          have ho2 := (Except.ok.inj ho).symm
          subst ho2
          have hqnd := queue_nodup b a x0 h.2.2.1
          rw [hq] at hqnd
          have hnt : n ∉ t2 := (List.nodup_cons.1 (List.nodup_cons.1 hqnd).2).1
          have hnd := nodup_drop_front b a x0 f (n :: t2) hq h.2.2.1
          refine consistent_replace b a x0 (n :: t2) susp
            (fun z => if z = n then false else susp z) h (by simp) hnd ?_ ?_
          · intro y hy q hqy
            have hqx := not_mem_other b a x0 h.2.2.1 y hy q hqy
            rw [hq] at hqx
            have hqn : q ≠ n := fun e =>
              hqx (e ▸ List.mem_cons_of_mem _ (List.mem_cons_self _ _))
            simp [hqn]
          · intro f2 t3 heq
            simp only [List.cons.injEq] at heq
            obtain ⟨hf2, ht3⟩ := heq
            subst hf2
            subst ht3
            refine ⟨by simp, ?_⟩
            intro q hqt
            have hqn : q ≠ n := fun e => hnt (e ▸ hqt)
            simpa [hqn] using hrun.2 q (List.mem_cons_of_mem _ hqt)

theorem reachable_consistent (s : System) (h : Reachable s) : Consistent s := by
  induction h with
  | init => exact consistent_init
  | join s user_cmd p o _ hs hfree ho ih => exact consistent_join s user_cmd p o ih hs hfree ho
  | yield s user_cmd p o _ _ ho ih => exact consistent_yield s user_cmd p o ih ho
  | leave s user_cmd p o _ hs hown ho ih => exact consistent_leave s user_cmd p o ih hs hown ho

/-- C10. One running member per container: in every state reached from the empty
directory by Create-or-Join, Yield and Leave requests, each issued by a task that is not
asleep, a task joining only while in no container and a Leave naming the container of its
caller, every registered container has a front member; that member is awake and every
other member of the container is asleep. -/
theorem one_running_member (s : System) (h : Reachable s) :
    ∀ x ∈ s.containerListHead, ∃ f t, x.threadList = f :: t ∧
      s.suspended f = false ∧ ∀ q ∈ t, s.suspended q = true := by
  have hc := reachable_consistent s h
  intro x hx
  cases hq : x.threadList with
  | nil => exact absurd hq (hc.1 x hx)
  | cons f t => exact ⟨f, t, rfl, hc.2.2.2 x hx f t hq⟩

theorem one_running_member_witness :
    Reachable ((System.init.after 10
        ⟨[⟨1, [10]⟩], [.mutex_lock_list, .mutex_unlock_list], 0⟩).after 20
        ⟨[⟨1, [10, 20]⟩], [.mutex_lock_list, .mutex_unlock_list, .mutex_lock_container 1,
          .mutex_unlock_container 1, .schedule], 0⟩) ∧
    ∀ x ∈ ((System.init.after 10
        ⟨[⟨1, [10]⟩], [.mutex_lock_list, .mutex_unlock_list], 0⟩).after 20
        ⟨[⟨1, [10, 20]⟩], [.mutex_lock_list, .mutex_unlock_list, .mutex_lock_container 1,
          .mutex_unlock_container 1, .schedule], 0⟩).containerListHead,
      ∃ f t, x.threadList = f :: t ∧
        ((System.init.after 10
          ⟨[⟨1, [10]⟩], [.mutex_lock_list, .mutex_unlock_list], 0⟩).after 20
          ⟨[⟨1, [10, 20]⟩], [.mutex_lock_list, .mutex_unlock_list, .mutex_lock_container 1,
            .mutex_unlock_container 1, .schedule], 0⟩).suspended f = false ∧
        ∀ q ∈ t, ((System.init.after 10
          ⟨[⟨1, [10]⟩], [.mutex_lock_list, .mutex_unlock_list], 0⟩).after 20
          ⟨[⟨1, [10, 20]⟩], [.mutex_lock_list, .mutex_unlock_list, .mutex_lock_container 1,
            .mutex_unlock_container 1, .schedule], 0⟩).suspended q = true :=
  (fun h => ⟨h, one_running_member _ h⟩)
    (Reachable.join _ (some ⟨1, 0⟩) 20 _
      (Reachable.join System.init (some ⟨1, 0⟩) 10 _ Reachable.init rfl
        (by simp [System.init]) rfl)
      rfl (by simp [System.after, System.init]) rfl)

/-- In a reachable state every request the run allows returns: no verb faults there. -/
theorem reachable_requests_return (s : System) (h : Reachable s) :
    (∀ user_cmd p, ∃ o, processor_container_create s.containerListHead user_cmd p = .ok o) ∧
    (∀ user_cmd p, ∃ o, processor_container_switch s.containerListHead user_cmd p = .ok o) ∧
    (∀ user_cmd p, s.suspended p = false →
      (∀ cmd, user_cmd = some cmd →
        ∃ x ∈ s.containerListHead, x.cid = cmd.cid ∧ p ∈ x.threadList) →
      ∃ o, processor_container_delete s.containerListHead user_cmd p = .ok o) := by
  have hc := reachable_consistent s h
  obtain ⟨registry, susp⟩ := s
  refine ⟨?_, ?_, ?_⟩
  · intro user_cmd p
    cases user_cmd with
    | none => exact ⟨_, rfl⟩
    | some cmd =>
      cases hl : lookup registry cmd.cid with
      | none =>
        exact ⟨_, create_of_absent registry cmd p
          (create_findContainer_none _ _ (lookup_none_imp registry cmd.cid hl))⟩
      | some x =>
        obtain ⟨hx, b, a, hreg, hb⟩ := lookup_eq_some registry cmd.cid x hl
        cases hq : x.threadList with
        | nil => exact absurd hq (hc.1 x (by simp [hreg]))
        | cons f t =>
          exact ⟨_, create_of_found registry cmd p b a x f t
            (hreg ▸ create_findContainer_first cmd.cid b x a hx hb) hq⟩
  · intro user_cmd p
    cases user_cmd with
    | none => exact ⟨_, rfl⟩
    | some cmd =>
      rcases front_split registry p with hno | ⟨w, x, r, t, hreg, hq, hw⟩
      · exact ⟨_, switch_of_absent registry cmd p
          (switch_findContainer_none p registry hc.1 hno)⟩
      · have hfind : switch_findContainer p registry = .ok (some (w, x, r)) :=
          hreg ▸ switch_findContainer_first p w x r t hq
            (fun y hy => hc.1 y (by simp [hreg, hy])) hw
        cases t with
        | nil => exact ⟨_, switch_of_alone registry cmd p w r x p hfind hq⟩
        | cons n t2 => exact ⟨_, switch_of_found registry cmd p w r x p n t2 hfind hq⟩
  · intro user_cmd p hs hown
    cases user_cmd with
    | none => exact ⟨_, rfl⟩
    | some cmd =>
      obtain ⟨x0, hx0, hc0, hp0⟩ := hown cmd rfl
      cases hl : lookup registry cmd.cid with
      | none => exact absurd hc0 (lookup_none_imp registry cmd.cid hl x0 hx0)
      | some x =>
        obtain ⟨hx, b, a, hreg, hb⟩ := lookup_eq_some registry cmd.cid x hl
        have hfind : delete_findContainer cmd.cid registry = .ok (b, x, a) :=
          hreg ▸ delete_findContainer_first cmd.cid b x a hx hb
        have hxmem : x ∈ registry := by simp [hreg]
        have hids : (List.map container.cid registry).Nodup := hc.2.1
        have hx0x : x0 = x := by
          have hx0b : x0 ∈ b ++ x :: a := hreg ▸ hx0
          simp only [List.mem_append, List.mem_cons] at hx0b
          rcases hx0b with h1 | h1 | h1
          · exact absurd hc0 (hb x0 h1)
          · exact h1
          · exfalso
            rw [hreg, List.map_append, List.map_cons] at hids
            have h2 := (List.nodup_cons.1 (List.nodup_append.1 hids).2.1).1
            exact h2 (List.mem_map.2 ⟨x0, h1, hc0.trans hx.symm⟩)
        subst hx0x
        cases hq : x0.threadList with
        | nil => exact absurd hq (hc.1 x0 hxmem)
        | cons f t =>
          have hrun := hc.2.2.2 x0 hxmem f t hq
          have hpf : f = p := by
            rw [hq] at hp0
            rcases List.mem_cons.1 hp0 with h1 | h1
            · exact h1.symm
            · have h3 : susp p = true := hrun.2 p h1
              have h4 : susp p = false := hs
              rw [h4] at h3
              exact absurd h3 (by simp)
          subst hpf
          have ht : delete_findThread f x0.threadList = .ok ([], f, t) := by
            simp [hq, delete_findThread]
          cases t with
          | nil => exact ⟨_, delete_of_last registry cmd f b a x0 f hfind ht⟩
          | cons n t2 => exact ⟨_, delete_of_front registry cmd f b a x0 t2 f n hfind ht⟩

/-! ## Requests that fail -/

theorem create_of_empty (registry : Registry) (cmd : processor_container_cmd) (p : Pid)
    (before after : List container) (x : container)
    (hfind : create_findContainer cmd.cid registry = some (before, x, after))
    (hx : x.threadList = []) :
    processor_container_create registry (some cmd) p =
      .ok ⟨registry, [.mutex_lock_list, .mutex_unlock_list, .mutex_lock_container x.cid,
        .mutex_unlock_list], 0⟩ := by
  simp only [processor_container_create, hfind]
  split
  · rfl
  · rename_i h
    rw [hx] at h
    exact absurd h (by simp)

theorem delete_of_empty (registry : Registry) (cmd : processor_container_cmd) (p : Pid)
    (before after : List container) (x : container)
    (hfind : delete_findContainer cmd.cid registry = .ok (before, x, after))
    (hx : x.threadList = []) :
    processor_container_delete registry (some cmd) p =
      .ok ⟨registry, [.mutex_lock_list, .mutex_unlock_list, .mutex_lock_container x.cid,
        .mutex_unlock_container x.cid], 0⟩ := by
  cases registry with
  | nil => simp [delete_findContainer] at hfind
  | cons a as => simp only [processor_container_delete, hfind, hx]

/-- The walk over the directory runs off its end when no container has the id. -/
theorem delete_findContainer_absent (cid : Nat) (registry : Registry)
    (h : ∀ y ∈ registry, y.cid ≠ cid) :
    delete_findContainer cid registry = .error .null_dereference := by
  induction registry with
  | nil => rfl
  | cons y ys ih =>
    have hy : y.cid ≠ cid := h y (List.mem_cons_self _ _)
    simp [delete_findContainer, hy, ih (fun z hz => h z (List.mem_cons_of_mem _ hz))]

/-- The walk over a thread list runs off its end when the caller has no entry in it. -/
theorem delete_findThread_absent (p : Pid) (l : List Pid) (h : p ∉ l) :
    delete_findThread p l = .error .null_dereference := by
  induction l with
  | nil => rfl
  | cons y ys ih =>
    have hy : y ≠ p := fun e => h (e ▸ List.mem_cons_self _ _)
    simp [delete_findThread, hy, ih (fun hz => h (List.mem_cons_of_mem _ hz))]

theorem delete_of_unregistered (registry : Registry) (cmd : processor_container_cmd)
    (p : Pid) (hne : registry ≠ []) (h : ∀ y ∈ registry, y.cid ≠ cmd.cid) :
    processor_container_delete registry (some cmd) p = .error .null_dereference := by
  cases registry with
  | nil => exact absurd rfl hne
  | cons a as =>
    simp only [processor_container_delete, delete_findContainer_absent cmd.cid _ h]

theorem delete_of_stranger (registry : Registry) (cmd : processor_container_cmd) (p : Pid)
    (before after : List container) (x : container)
    (hfind : delete_findContainer cmd.cid registry = .ok (before, x, after))
    (hne : x.threadList ≠ []) (hp : p ∉ x.threadList) :
    processor_container_delete registry (some cmd) p = .error .null_dereference := by
  cases registry with
  | nil => simp [delete_findContainer] at hfind
  | cons a as =>
    simp only [processor_container_delete, hfind]
    cases hq : x.threadList with
    | nil => exact absurd hq hne
    | cons f t =>
      have := delete_findThread_absent p x.threadList hp
      rw [hq] at this
      simp only [this]

/-- C13. Leave on an id that no container of a non-empty directory has: the walk
`while(containerPtr->cid != my_cmd.cid)` steps past the last container and dereferences
`NULL`; the verb does not return, so the test `containerPtr == NULL` that follows the
walk, and its no-op failure, are never reached. -/
theorem delete_unregistered_id_faults (registry : Registry) (cmd : processor_container_cmd)
    (p : Pid) (hne : registry ≠ []) (h : ∀ y ∈ registry, y.cid ≠ cmd.cid) :
    processor_container_delete registry (some cmd) p = .error .null_dereference ∧
      ¬ ∃ o, processor_container_delete registry (some cmd) p = .ok o := by
  have hd := delete_of_unregistered registry cmd p hne h
  refine ⟨hd, ?_⟩
  rintro ⟨o, ho⟩
  rw [hd] at ho
  exact absurd ho (by simp)

theorem delete_unregistered_id_faults_witness :
    ([⟨7, [3]⟩] : Registry) ≠ [] ∧
    (processor_container_delete [⟨7, [3]⟩] (some ⟨1, 0⟩) 3 = .error .null_dereference ∧
      ¬ ∃ o, processor_container_delete [⟨7, [3]⟩] (some ⟨1, 0⟩) 3 = .ok o) :=
  ⟨by decide, delete_unregistered_id_faults [⟨7, [3]⟩] ⟨1, 0⟩ 3 (by decide) (by decide)⟩

/-- C14. Leave on a registered id by a task that has no entry in the non-empty queue of
that container: the walk `while(threadPtr->currentPtr->pid != current->pid)` steps past
the last entry and dereferences `NULL`; the verb does not return, so the test
`threadPtr == NULL` that follows the walk, and its no-op failure, are never reached. -/
theorem delete_by_stranger_faults (registry : Registry) (cmd : processor_container_cmd)
    (p : Pid) (x : container)
    (hfound : lookup registry cmd.cid = some x) (hne : x.threadList ≠ [])
    (hp : p ∉ x.threadList) :
    processor_container_delete registry (some cmd) p = .error .null_dereference ∧
      ¬ ∃ o, processor_container_delete registry (some cmd) p = .ok o := by
  obtain ⟨hx, before, after, hreg, hb⟩ := lookup_eq_some registry cmd.cid x hfound
  have hfind : delete_findContainer cmd.cid registry = .ok (before, x, after) :=
    hreg ▸ delete_findContainer_first cmd.cid before x after hx hb
  have hd := delete_of_stranger registry cmd p before after x hfind hne hp
  refine ⟨hd, ?_⟩
  rintro ⟨o, ho⟩
  rw [hd] at ho
  exact absurd ho (by simp)

theorem delete_by_stranger_faults_witness :
    lookup [⟨1, [4]⟩] (⟨1, 0⟩ : processor_container_cmd).cid = some ⟨1, [4]⟩ ∧
    (processor_container_delete [⟨1, [4]⟩] (some ⟨1, 0⟩) 5 = .error .null_dereference ∧
      ¬ ∃ o, processor_container_delete [⟨1, [4]⟩] (some ⟨1, 0⟩) 5 = .ok o) :=
  ⟨by decide, delete_by_stranger_faults [⟨1, [4]⟩] ⟨1, 0⟩ 5 ⟨1, [4]⟩ (by decide)
    (by decide) (by decide)⟩

/-- C17. Yield by a task that is the front of no container, in a directory (possibly
empty) whose containers all have a member: the verb returns, whatever the request pointer,
with the directory as it was, nobody woken and the caller not put to sleep. -/
theorem switch_not_front (registry : Registry) (user_cmd : Option processor_container_cmd)
    (p : Pid) (hne : ∀ y ∈ registry, y.threadList ≠ [])
    (hfront : ∀ y ∈ registry, y.threadList.head? ≠ some p) :
    ∃ o, processor_container_switch registry user_cmd p = .ok o ∧
      o.containerListHead = registry ∧ wakes o.trace = [] ∧ suspends o.trace = false := by
  cases user_cmd with
  | none => exact ⟨_, rfl, rfl, rfl, rfl⟩
  | some cmd =>
    exact ⟨_, switch_of_absent registry cmd p
      (switch_findContainer_none p registry hne hfront), rfl, rfl, rfl⟩

theorem switch_not_front_witness :
    (∀ y ∈ ([⟨7, [3, 4]⟩, ⟨1, [5]⟩] : Registry), y.threadList ≠ []) ∧
    ∃ o, processor_container_switch [⟨7, [3, 4]⟩, ⟨1, [5]⟩] (some ⟨0, 0⟩) 4 = .ok o ∧
      o.containerListHead = [⟨7, [3, 4]⟩, ⟨1, [5]⟩] ∧
      wakes o.trace = [] ∧ suspends o.trace = false :=
  ⟨by decide, switch_not_front [⟨7, [3, 4]⟩, ⟨1, [5]⟩] (some ⟨0, 0⟩) 4 (by decide)
    (by decide)⟩

/-- C19, as the code has it. Create-or-Join on an id whose container has an empty queue:
the verb returns with the directory as it was, so the caller is not added; the caller is
not put to sleep and nobody is woken. -/
theorem create_on_empty_queue (registry : Registry) (cmd : processor_container_cmd)
    (p : Pid) (x : container)
    (hfound : lookup registry cmd.cid = some x) (hempty : x.threadList = []) :
    ∃ o, processor_container_create registry (some cmd) p = .ok o ∧
      o.containerListHead = registry ∧
      lookup o.containerListHead cmd.cid = some x ∧
      suspends o.trace = false ∧ wakes o.trace = [] := by
  obtain ⟨hx, before, after, hreg, hb⟩ := lookup_eq_some registry cmd.cid x hfound
  have hfind : create_findContainer cmd.cid registry = some (before, x, after) :=
    hreg ▸ create_findContainer_first cmd.cid before x after hx hb
  exact ⟨_, create_of_empty registry cmd p before after x hfind hempty, rfl, hfound,
    rfl, rfl⟩

theorem create_on_empty_queue_witness :
    lookup [⟨1, []⟩] (⟨1, 0⟩ : processor_container_cmd).cid = some ⟨1, []⟩ ∧
    ∃ o, processor_container_create [⟨1, []⟩] (some ⟨1, 0⟩) 5 = .ok o ∧
      o.containerListHead = [⟨1, []⟩] ∧
      lookup o.containerListHead 1 = some ⟨1, []⟩ ∧
      suspends o.trace = false ∧ wakes o.trace = [] :=
  ⟨by decide, create_on_empty_queue [⟨1, []⟩] ⟨1, 0⟩ 5 ⟨1, []⟩ (by decide) rfl⟩

/-- C19, as stated, fails: in the directory holding container 1 with an empty queue,
Create-or-Join on id 1 by task 5 returns and container 1 still has no member. -/
theorem create_on_empty_queue_does_not_add :
    ∃ o, processor_container_create [⟨1, []⟩] (some ⟨1, 0⟩) 5 = .ok o ∧
      lookup o.containerListHead 1 = some ⟨1, []⟩ ∧
      lookup o.containerListHead 1 ≠ some ⟨1, [5]⟩ :=
  ⟨_, rfl, by decide, by decide⟩

/-! ## Every way a request can go -/

theorem create_cases (registry : Registry) (cmd : processor_container_cmd) (p : Pid) :
    ((∀ y ∈ registry, y.cid ≠ cmd.cid) ∧
      processor_container_create registry (some cmd) p =
        .ok ⟨registry ++ [⟨cmd.cid, [p]⟩], [.mutex_lock_list, .mutex_unlock_list], 0⟩) ∨
    ∃ b x a, registry = b ++ x :: a ∧ x.cid = cmd.cid ∧ (∀ y ∈ b, y.cid ≠ cmd.cid) ∧
      lookup registry cmd.cid = some x ∧
      ((x.threadList = [] ∧
        processor_container_create registry (some cmd) p =
          .ok ⟨registry, [.mutex_lock_list, .mutex_unlock_list,
            .mutex_lock_container x.cid, .mutex_unlock_list], 0⟩) ∨
       (x.threadList ≠ [] ∧
        processor_container_create registry (some cmd) p =
          .ok ⟨b ++ ⟨x.cid, x.threadList ++ [p]⟩ :: a,
            [.mutex_lock_list, .mutex_unlock_list, .mutex_lock_container x.cid,
             .mutex_unlock_container x.cid, .schedule], 0⟩)) := by
  cases hl : lookup registry cmd.cid with
  | none =>
    have hc := lookup_none_imp registry cmd.cid hl
    exact Or.inl ⟨hc, create_of_absent registry cmd p (create_findContainer_none _ _ hc)⟩
  | some x =>
    obtain ⟨hx, b, a, hreg, hb⟩ := lookup_eq_some registry cmd.cid x hl
    have hfind : create_findContainer cmd.cid registry = some (b, x, a) :=
      hreg ▸ create_findContainer_first cmd.cid b x a hx hb
    refine Or.inr ⟨b, x, a, hreg, hx, hb, rfl, ?_⟩
    cases hq : x.threadList with
    | nil => exact Or.inl ⟨rfl, create_of_empty registry cmd p b a x hfind hq⟩
    | cons f t =>
      exact Or.inr ⟨by simp, create_of_found registry cmd p b a x f t hfind hq⟩

theorem delete_cases (registry : Registry) (cmd : processor_container_cmd) (p : Pid) :
    (registry = [] ∧
      processor_container_delete registry (some cmd) p =
        .ok ⟨[], [.mutex_lock_list, .mutex_unlock_list], 0⟩) ∨
    (registry ≠ [] ∧ (∀ y ∈ registry, y.cid ≠ cmd.cid) ∧
      processor_container_delete registry (some cmd) p = .error .null_dereference) ∨
    ∃ b x a, registry = b ++ x :: a ∧ x.cid = cmd.cid ∧ (∀ y ∈ b, y.cid ≠ cmd.cid) ∧
      lookup registry cmd.cid = some x ∧
      ((x.threadList = [] ∧
        processor_container_delete registry (some cmd) p =
          .ok ⟨registry, [.mutex_lock_list, .mutex_unlock_list,
            .mutex_lock_container x.cid, .mutex_unlock_container x.cid], 0⟩) ∨
       (x.threadList ≠ [] ∧ p ∉ x.threadList ∧
        processor_container_delete registry (some cmd) p = .error .null_dereference) ∨
       ∃ tp tn, x.threadList = tp ++ p :: tn ∧ p ∉ tp ∧
        x.threadList.erase p = tp ++ tn ∧
        ((tp ≠ [] ∧
          processor_container_delete registry (some cmd) p =
            .ok ⟨b ++ ⟨x.cid, tp ++ tn⟩ :: a,
              [.mutex_lock_list, .mutex_unlock_list, .mutex_lock_container x.cid,
               .mutex_unlock_container x.cid], 0⟩) ∨
         (tp = [] ∧ ∃ n t2, tn = n :: t2 ∧
          processor_container_delete registry (some cmd) p =
            .ok ⟨b ++ ⟨x.cid, n :: t2⟩ :: a,
              [.mutex_lock_list, .mutex_unlock_list, .mutex_lock_container x.cid,
               .wake_up_process n, .mutex_unlock_container x.cid], 0⟩) ∨
         (tp = [] ∧ tn = [] ∧
          processor_container_delete registry (some cmd) p =
            .ok ⟨b ++ a,
              [.mutex_lock_list, .mutex_unlock_list, .mutex_lock_container x.cid,
               .mutex_lock_list, .mutex_unlock_list,
               .mutex_unlock_container x.cid], 0⟩))) := by
  by_cases hreg0 : registry = []
  · subst hreg0
    exact Or.inl ⟨rfl, rfl⟩
  · cases hl : lookup registry cmd.cid with
    | none =>
      have hc := lookup_none_imp registry cmd.cid hl
      exact Or.inr (Or.inl ⟨hreg0, hc, delete_of_unregistered registry cmd p hreg0 hc⟩)
    | some x =>
      obtain ⟨hx, b, a, hreg, hb⟩ := lookup_eq_some registry cmd.cid x hl
      have hfind : delete_findContainer cmd.cid registry = .ok (b, x, a) :=
        hreg ▸ delete_findContainer_first cmd.cid b x a hx hb
      refine Or.inr (Or.inr ⟨b, x, a, hreg, hx, hb, rfl, ?_⟩)
      by_cases hq : x.threadList = []
      · exact Or.inl ⟨hq, delete_of_empty registry cmd p b a x hfind hq⟩
      · by_cases hp : p ∈ x.threadList
        · obtain ⟨tp, tn, h1, h2, h3, h4⟩ := delete_findThread_mem p x.threadList hp
          refine Or.inr (Or.inr ⟨tp, tn, h2, h4, h3, ?_⟩)
          by_cases htp : tp = []
          · subst htp
            cases tn with
            | nil =>
              exact Or.inr (Or.inr ⟨rfl, rfl,
                delete_of_last registry cmd p b a x p hfind h1⟩)
            | cons n t2 =>
              exact Or.inr (Or.inl ⟨rfl, n, t2, rfl,
                delete_of_front registry cmd p b a x t2 p n hfind h1⟩)
          · exact Or.inl ⟨htp, delete_of_inner registry cmd p b a x tp tn p hfind h1 htp⟩
        · exact Or.inr (Or.inl ⟨hq, hp,
            delete_of_stranger registry cmd p b a x hfind hq hp⟩)

theorem switch_cases (registry : Registry) (cmd : processor_container_cmd) (p : Pid)
    (hne : ∀ y ∈ registry, y.threadList ≠ []) :
    ((∀ y ∈ registry, y.threadList.head? ≠ some p) ∧
      processor_container_switch registry (some cmd) p =
        .ok ⟨registry, [.mutex_lock_list, .mutex_unlock_list], 0⟩) ∨
    ∃ w x r t, registry = w ++ x :: r ∧ x.threadList = p :: t ∧
      (∀ y ∈ w, y.threadList.head? ≠ some p) ∧
      ((t = [] ∧
        processor_container_switch registry (some cmd) p =
          .ok ⟨registry, [.mutex_lock_list, .mutex_unlock_list], 0⟩) ∨
       ∃ n t2, t = n :: t2 ∧
        processor_container_switch registry (some cmd) p =
          .ok ⟨w ++ ⟨x.cid, n :: t2 ++ [p]⟩ :: r,
            [.mutex_lock_list, .mutex_unlock_list, .wake_up_process n,
             .schedule], 0⟩) := by
  rcases front_split registry p with hno | ⟨w, x, r, t, hreg, hq, hw⟩
  · exact Or.inl ⟨hno, switch_of_absent registry cmd p
      (switch_findContainer_none p registry hne hno)⟩
  · have hfind : switch_findContainer p registry = .ok (some (w, x, r)) :=
      hreg ▸ switch_findContainer_first p w x r t hq
        (fun y hy => hne y (by simp [hreg, hy])) hw
    refine Or.inr ⟨w, x, r, t, hreg, hq, hw, ?_⟩
    cases t with
    | nil => exact Or.inl ⟨rfl, switch_of_alone registry cmd p w r x p hfind hq⟩
    | cons n t2 =>
      exact Or.inr ⟨n, t2, rfl, switch_of_found registry cmd p w r x p n t2 hfind hq⟩

/-! ## Status codes -/

theorem create_ret (registry : Registry) (user_cmd : Option processor_container_cmd)
    (p : Pid) (o : Outcome)
    (h : processor_container_create registry user_cmd p = .ok o) : o.ret = 0 := by
  cases user_cmd with
  | none => cases h; rfl
  | some cmd =>
    rcases create_cases registry cmd p with ⟨_, h1⟩ | ⟨b, x, a, _, _, _, _, ⟨_, h1⟩ | ⟨_, h1⟩⟩ <;>
    · rw [h1] at h
      cases h
      rfl

theorem delete_ret (registry : Registry) (user_cmd : Option processor_container_cmd)
    (p : Pid) (o : Outcome)
    (h : processor_container_delete registry user_cmd p = .ok o) : o.ret = 0 := by
  cases user_cmd with
  | none => cases h; rfl
  | some cmd =>
    rcases delete_cases registry cmd p with
      ⟨_, h1⟩ | ⟨_, _, h1⟩ | ⟨b, x, a, _, _, _, _,
        ⟨_, h1⟩ | ⟨_, _, h1⟩ | ⟨tp, tn, _, _, _,
          ⟨_, h1⟩ | ⟨_, n, t2, _, h1⟩ | ⟨_, _, h1⟩⟩⟩ <;>
    · rw [h1] at h
      cases h
      try rfl

theorem switch_ret (registry : Registry) (user_cmd : Option processor_container_cmd)
    (p : Pid) (o : Outcome)
    (h : processor_container_switch registry user_cmd p = .ok o) : o.ret = 0 := by
  unfold processor_container_switch at h
  repeat' split at h
  all_goals
    first
      | (cases h; rfl)
      | (cases h)

/-- C15, as the code has it. Every failure the claim lists ends with status 0 and the
directory untouched: a null request to any verb, Leave or Yield on the empty directory,
and Yield by a task that is the front of no container (in a directory whose containers
all have a member). Status 0 is also what every verb returns on every other path that
returns, so the status does not tell failure from success. -/
theorem failed_verbs_return_zero (registry : Registry) (cmd : processor_container_cmd)
    (p : Pid) (hne : ∀ y ∈ registry, y.threadList ≠ [])
    (hfront : ∀ y ∈ registry, y.threadList.head? ≠ some p) :
    (∃ o, processor_container_create registry none p = .ok o ∧
      o.ret = 0 ∧ o.containerListHead = registry) ∧
    (∃ o, processor_container_switch registry none p = .ok o ∧
      o.ret = 0 ∧ o.containerListHead = registry) ∧
    (∃ o, processor_container_delete registry none p = .ok o ∧
      o.ret = 0 ∧ o.containerListHead = registry) ∧
    (∃ o, processor_container_delete [] (some cmd) p = .ok o ∧
      o.ret = 0 ∧ o.containerListHead = []) ∧
    (∃ o, processor_container_switch [] (some cmd) p = .ok o ∧
      o.ret = 0 ∧ o.containerListHead = []) ∧
    (∃ o, processor_container_switch registry (some cmd) p = .ok o ∧
      o.ret = 0 ∧ o.containerListHead = registry) ∧
    ∀ (directory : Registry) (user_cmd : Option processor_container_cmd) (q : Pid)
      (o : Outcome),
      (processor_container_create directory user_cmd q = .ok o ∨
       processor_container_switch directory user_cmd q = .ok o ∨
       processor_container_delete directory user_cmd q = .ok o) → o.ret = 0 := by
  refine ⟨⟨_, rfl, rfl, rfl⟩, ⟨_, rfl, rfl, rfl⟩, ⟨_, rfl, rfl, rfl⟩, ⟨_, rfl, rfl, rfl⟩,
    ⟨_, rfl, rfl, rfl⟩, ?_, ?_⟩
  · exact ⟨_, switch_of_absent registry cmd p
      (switch_findContainer_none p registry hne hfront), rfl, rfl⟩
  · intro directory user_cmd q o h
    rcases h with h | h | h
    · exact create_ret directory user_cmd q o h
    · exact switch_ret directory user_cmd q o h
    · exact delete_ret directory user_cmd q o h

theorem failed_verbs_return_zero_witness :
    (∀ y ∈ ([⟨7, [3, 4]⟩] : Registry), y.threadList ≠ []) ∧
    ∃ o, processor_container_switch [⟨7, [3, 4]⟩] (some ⟨7, 0⟩) 4 = .ok o ∧
      o.ret = 0 ∧ o.containerListHead = [⟨7, [3, 4]⟩] :=
  ⟨by decide, (failed_verbs_return_zero [⟨7, [3, 4]⟩] ⟨7, 0⟩ 4 (by decide)
    (by decide)).2.2.2.2.2.1⟩

/-- C15, as stated, fails: a null request to each verb, Leave and Yield on the empty
directory, and Yield by task 4, which is in front of no container, all return status 0,
which is neither non-zero nor negative. -/
theorem failed_verbs_status_is_zero :
    (∃ o, processor_container_create [⟨7, [3, 4]⟩] none 4 = .ok o ∧
      ¬ o.ret ≠ 0 ∧ ¬ o.ret < 0) ∧
    (∃ o, processor_container_switch [⟨7, [3, 4]⟩] none 4 = .ok o ∧
      ¬ o.ret ≠ 0 ∧ ¬ o.ret < 0) ∧
    (∃ o, processor_container_delete [⟨7, [3, 4]⟩] none 4 = .ok o ∧
      ¬ o.ret ≠ 0 ∧ ¬ o.ret < 0) ∧
    (∃ o, processor_container_delete [] (some ⟨7, 0⟩) 4 = .ok o ∧
      ¬ o.ret ≠ 0 ∧ ¬ o.ret < 0) ∧
    (∃ o, processor_container_switch [] (some ⟨7, 0⟩) 4 = .ok o ∧
      ¬ o.ret ≠ 0 ∧ ¬ o.ret < 0) ∧
    (∃ o, processor_container_switch [⟨7, [3, 4]⟩] (some ⟨7, 0⟩) 4 = .ok o ∧
      ¬ o.ret ≠ 0 ∧ ¬ o.ret < 0) :=
  ⟨⟨_, rfl, by decide, by decide⟩, ⟨_, rfl, by decide, by decide⟩,
    ⟨_, rfl, by decide, by decide⟩, ⟨_, rfl, by decide, by decide⟩,
    ⟨_, rfl, by decide, by decide⟩, ⟨_, rfl, by decide, by decide⟩⟩

/-! ## Locks -/

theorem create_locks (registry : Registry) (user_cmd : Option processor_container_cmd)
    (p : Pid) (o : Outcome)
    (h : processor_container_create registry user_cmd p = .ok o) :
    neverBoth ⟨false, []⟩ o.trace = true ∧ listReleasedFirst ⟨false, []⟩ o.trace = true := by
  cases user_cmd with
  | none => cases h; exact ⟨rfl, rfl⟩
  | some cmd =>
    rcases create_cases registry cmd p with ⟨_, h1⟩ | ⟨b, x, a, _, _, _, _, ⟨_, h1⟩ | ⟨_, h1⟩⟩ <;>
    · rw [h1] at h
      cases h
      simp [neverBoth, listReleasedFirst, Held.step, Held.both]

theorem switch_locks (registry : Registry) (user_cmd : Option processor_container_cmd)
    (p : Pid) (o : Outcome)
    (h : processor_container_switch registry user_cmd p = .ok o) :
    neverBoth ⟨false, []⟩ o.trace = true ∧ listReleasedFirst ⟨false, []⟩ o.trace = true := by
  unfold processor_container_switch at h
  repeat' split at h
  all_goals
    first
      | (cases h; exact ⟨rfl, rfl⟩)
      | (cases h)

theorem delete_locks (registry : Registry) (user_cmd : Option processor_container_cmd)
    (p : Pid) (o : Outcome)
    (h : processor_container_delete registry user_cmd p = .ok o) :
    listReleasedFirst ⟨false, []⟩ o.trace = true ∧
    (neverBoth ⟨false, []⟩ o.trace = false ↔
      ∃ cmd x, user_cmd = some cmd ∧ lookup registry cmd.cid = some x ∧
        x.threadList = [p]) := by
  cases user_cmd with
  | none =>
    cases h
    refine ⟨rfl, ?_⟩
    simp [neverBoth]
  | some cmd =>
    rcases delete_cases registry cmd p with
      ⟨h0, h1⟩ | ⟨_, _, h1⟩ | ⟨b, x, a, _, _, _, hl,
        ⟨hq, h1⟩ | ⟨_, _, h1⟩ | ⟨tp, tn, hq, _, _,
          ⟨htp, h1⟩ | ⟨htp, n, t2, htn, h1⟩ | ⟨htp, htn, h1⟩⟩⟩
    · rw [h1] at h
      cases h
      subst h0
      simp [neverBoth, listReleasedFirst, Held.step, Held.both, lookup]
    · rw [h1] at h
      cases h
    · rw [h1] at h
      cases h
      simp [neverBoth, listReleasedFirst, Held.step, Held.both, hl, hq]
    · rw [h1] at h
      cases h
    · rw [h1] at h
      cases h
      have hx : x.threadList ≠ [p] := by
        rw [hq]
        cases tp with
        | nil => exact absurd rfl htp
        | cons f t => simp
      simp [neverBoth, listReleasedFirst, Held.step, Held.both, hl, hx]
    · rw [h1] at h
      cases h
      have hx : x.threadList ≠ [p] := by
        rw [hq, htp, htn]
        simp
      simp [neverBoth, listReleasedFirst, Held.step, Held.both, hl, hx]
    · rw [h1] at h
      cases h
      have hx : x.threadList = [p] := by
        rw [hq, htp, htn]
        rfl
      simp [neverBoth, listReleasedFirst, Held.step, Held.both, hl, hx]

/-- C18, as the code has it. On every path of Create-or-Join and of Yield that returns,
the caller never holds the list lock and a container lock together. On every path of
Leave that returns, the same holds except on one path: when the caller is the only member
of the container the directory holds for the requested id, it takes the list lock while
it still holds the lock of that container. On all returning paths of the three verbs a
container lock is acquired only with the list lock released. -/
theorem lock_discipline (registry : Registry) (user_cmd : Option processor_container_cmd)
    (p : Pid) (o : Outcome) :
    (processor_container_create registry user_cmd p = .ok o →
      neverBoth ⟨false, []⟩ o.trace = true ∧
      listReleasedFirst ⟨false, []⟩ o.trace = true) ∧
    (processor_container_switch registry user_cmd p = .ok o →
      neverBoth ⟨false, []⟩ o.trace = true ∧
      listReleasedFirst ⟨false, []⟩ o.trace = true) ∧
    (processor_container_delete registry user_cmd p = .ok o →
      listReleasedFirst ⟨false, []⟩ o.trace = true ∧
      (neverBoth ⟨false, []⟩ o.trace = false ↔
        ∃ cmd x, user_cmd = some cmd ∧ lookup registry cmd.cid = some x ∧
          x.threadList = [p])) :=
  ⟨create_locks registry user_cmd p o, switch_locks registry user_cmd p o,
    delete_locks registry user_cmd p o⟩

theorem lock_discipline_witness :
    processor_container_delete [⟨1, [4, 5]⟩] (some ⟨1, 0⟩) 4 =
      .ok ⟨[⟨1, [5]⟩], [.mutex_lock_list, .mutex_unlock_list, .mutex_lock_container 1,
        .wake_up_process 5, .mutex_unlock_container 1], 0⟩ ∧
    (listReleasedFirst ⟨false, []⟩ [.mutex_lock_list, .mutex_unlock_list,
        .mutex_lock_container 1, .wake_up_process 5, .mutex_unlock_container 1] = true ∧
      (neverBoth ⟨false, []⟩ [.mutex_lock_list, .mutex_unlock_list,
        .mutex_lock_container 1, .wake_up_process 5, .mutex_unlock_container 1] = false ↔
        ∃ cmd x, some (⟨1, 0⟩ : processor_container_cmd) = some cmd ∧
          lookup [⟨1, [4, 5]⟩] cmd.cid = some x ∧ x.threadList = [4])) :=
  ⟨rfl, (lock_discipline [⟨1, [4, 5]⟩] (some ⟨1, 0⟩) 4 _).2.2 rfl⟩

/-- C18, as stated, fails: when task 4, the only member of container 1, leaves it, the
verb takes the list lock while it holds the lock of container 1. -/
theorem delete_last_member_holds_both_locks :
    ∃ o, processor_container_delete [⟨1, [4]⟩] (some ⟨1, 0⟩) 4 = .ok o ∧
      o.trace = [.mutex_lock_list, .mutex_unlock_list, .mutex_lock_container 1,
        .mutex_lock_list, .mutex_unlock_list, .mutex_unlock_container 1] ∧
      neverBoth ⟨false, []⟩ o.trace = false ∧
      (Held.step (Held.step (Held.step (Held.step ⟨false, []⟩ .mutex_lock_list)
        .mutex_unlock_list) (.mutex_lock_container 1)) .mutex_lock_list).both = true :=
  ⟨_, rfl, rfl, by decide, by decide⟩

/-! ## The directory stays well formed -/

theorem ids_split (b a : List container) (x : container) :
    ids (b ++ x :: a) = ids b ++ x.cid :: ids a := by
  simp [ids]

theorem ids_remove (b a : List container) : ids (b ++ a) = ids b ++ ids a := by
  simp [ids]

theorem mem_ids (c : Nat) (registry : Registry) :
    c ∈ ids registry ↔ ∃ y ∈ registry, y.cid = c := by
  simp [ids]

/-- With distinct ids, a container of the directory is known by its id. -/
theorem unique_by_id (b a : List container) (x y : container)
    (hids : (ids (b ++ x :: a)).Nodup) (hy : y ∈ b ++ x :: a) (hc : y.cid = x.cid) :
    y = x := by
  rw [ids_split] at hids
  have h1 := List.nodup_append.1 hids
  simp only [List.mem_append, List.mem_cons] at hy
  rcases hy with h | h | h
  · exact absurd (List.mem_cons_self _ _)
      (fun hm => h1.2.2 ((mem_ids x.cid b).2 ⟨y, h, hc⟩) hm)
  · exact h
  · exact absurd ((mem_ids x.cid a).2 ⟨y, h, hc⟩) (List.nodup_cons.1 h1.2.1).1

theorem id_not_beside (b a : List container) (x : container)
    (hids : (ids (b ++ x :: a)).Nodup) : x.cid ∉ ids (b ++ a) := by
  rw [ids_split] at hids
  rw [ids_remove]
  have h1 := List.nodup_append.1 hids
  intro hm
  rcases List.mem_append.1 hm with h | h
  · exact h1.2.2 h (List.mem_cons_self _ _)
  · exact (List.nodup_cons.1 h1.2.1).1 h

theorem nonempty_replace (b a : List container) (x : container) (q : List Pid)
    (h : ∀ y ∈ b ++ x :: a, y.threadList ≠ []) (hq : q ≠ []) :
    ∀ y ∈ b ++ (⟨x.cid, q⟩ : container) :: a, y.threadList ≠ [] := by
  intro y hy
  simp only [List.mem_append, List.mem_cons] at hy
  rcases hy with hy | hy | hy
  · exact h y (by simp [hy])
  · rw [hy]; exact hq
  · exact h y (by simp [hy])

theorem nonempty_remove (b a : List container) (x : container)
    (h : ∀ y ∈ b ++ x :: a, y.threadList ≠ []) : ∀ y ∈ b ++ a, y.threadList ≠ [] := by
  intro y hy
  apply h y
  simp only [List.mem_append, List.mem_cons] at hy ⊢
  tauto

theorem ids_nodup_remove (b a : List container) (x : container)
    (h : (ids (b ++ x :: a)).Nodup) : (ids (b ++ a)).Nodup := by
  rw [ids_split] at h
  rw [ids_remove]
  exact List.Nodup.sublist (List.Sublist.append (List.Sublist.refl _)
    (List.sublist_cons_self _ _)) h

theorem ids_nodup_append (registry : Registry) (c : Nat) (q : List Pid)
    (h : (ids registry).Nodup) (hc : ∀ y ∈ registry, y.cid ≠ c) :
    (ids (registry ++ [⟨c, q⟩])).Nodup := by
  have hsplit : ids (registry ++ [(⟨c, q⟩ : container)]) = ids registry ++ [c] := by
    simp [ids]
  rw [hsplit, List.nodup_append]
  refine ⟨h, by simp, ?_⟩
  intro i hi hi2
  obtain ⟨y, hy, hyc⟩ := (mem_ids i registry).1 hi
  have : i = c := by simpa using hi2
  exact hc y hy (hyc.trans this)

/-- One request that returns keeps ids distinct and queues non-empty. -/
theorem create_keeps (registry : Registry) (user_cmd : Option processor_container_cmd)
    (p : Pid) (o : Outcome)
    (hids : (ids registry).Nodup) (hne : ∀ y ∈ registry, y.threadList ≠ [])
    (h : processor_container_create registry user_cmd p = .ok o) :
    (ids o.containerListHead).Nodup ∧ ∀ y ∈ o.containerListHead, y.threadList ≠ [] := by
  cases user_cmd with
  | none => cases h; exact ⟨hids, hne⟩
  | some cmd =>
    rcases create_cases registry cmd p with
      ⟨hc, h1⟩ | ⟨b, x, a, hreg, _, _, _, ⟨_, h1⟩ | ⟨hq, h1⟩⟩
    · rw [h1] at h
      cases h
      refine ⟨ids_nodup_append registry cmd.cid [p] hids hc, ?_⟩
      intro y hy
      rcases List.mem_append.1 hy with hy | hy
      · exact hne y hy
      · rw [List.mem_singleton.1 hy]; simp
    · rw [h1] at h
      cases h
      exact ⟨hids, hne⟩
    · rw [h1] at h
      cases h
      subst hreg
      refine ⟨?_, nonempty_replace b a x _ hne (by simp)⟩
      show (ids (b ++ (⟨x.cid, x.threadList ++ [p]⟩ : container) :: a)).Nodup
      rw [ids_split] at hids ⊢
      exact hids

theorem switch_keeps (registry : Registry) (user_cmd : Option processor_container_cmd)
    (p : Pid) (o : Outcome)
    (hids : (ids registry).Nodup) (hne : ∀ y ∈ registry, y.threadList ≠ [])
    (h : processor_container_switch registry user_cmd p = .ok o) :
    ids o.containerListHead = ids registry ∧
      (ids o.containerListHead).Nodup ∧ ∀ y ∈ o.containerListHead, y.threadList ≠ [] := by
  cases user_cmd with
  | none => cases h; exact ⟨rfl, hids, hne⟩
  | some cmd =>
    rcases switch_cases registry cmd p hne with
      ⟨_, h1⟩ | ⟨w, x, r, t, hreg, _, _, ⟨_, h1⟩ | ⟨n, t2, _, h1⟩⟩
    · rw [h1] at h
      cases h
      exact ⟨rfl, hids, hne⟩
    · rw [h1] at h
      cases h
      exact ⟨rfl, hids, hne⟩
    · rw [h1] at h
      cases h
      subst hreg
      have hsame : ids (w ++ (⟨x.cid, n :: t2 ++ [p]⟩ : container) :: r)
          = ids (w ++ x :: r) := by
        rw [ids_split, ids_split]
      exact ⟨hsame, hsame ▸ hids, nonempty_replace w r x _ hne (by simp)⟩

theorem delete_keeps (registry : Registry) (user_cmd : Option processor_container_cmd)
    (p : Pid) (o : Outcome)
    (hids : (ids registry).Nodup) (hne : ∀ y ∈ registry, y.threadList ≠ [])
    (h : processor_container_delete registry user_cmd p = .ok o) :
    (ids o.containerListHead).Nodup ∧ (∀ y ∈ o.containerListHead, y.threadList ≠ []) ∧
      ∀ c ∈ ids registry, (c ∉ ids o.containerListHead ↔
        ∃ cmd, user_cmd = some cmd ∧ cmd.cid = c ∧ lookup registry c = some ⟨c, [p]⟩) := by
  cases user_cmd with
  | none =>
    cases h
    refine ⟨hids, hne, ?_⟩
    intro c hc
    simp [hc]
  | some cmd =>
    rcases delete_cases registry cmd p with
      ⟨h0, h1⟩ | ⟨_, _, h1⟩ | ⟨b, x, a, hreg, hx, _, hl,
        ⟨hq, h1⟩ | ⟨_, _, h1⟩ | ⟨tp, tn, hq, _, _,
          ⟨htp, h1⟩ | ⟨htp, n, t2, htn, h1⟩ | ⟨htp, htn, h1⟩⟩⟩
    · rw [h1] at h
      cases h
      subst h0
      exact ⟨hids, hne, by simp [ids]⟩
    · rw [h1] at h
      cases h
    · exact absurd hq (hne x (by simp [hreg]))
    · rw [h1] at h
      cases h
    · rw [h1] at h
      cases h
      subst hreg
      have hsame : ids (b ++ (⟨x.cid, tp ++ tn⟩ : container) :: a) = ids (b ++ x :: a) := by
        rw [ids_split, ids_split]
      have hx1 : x.threadList ≠ [p] := by
        rw [hq]
        cases tp with
        | nil => exact absurd rfl htp
        | cons f t => simp
      refine ⟨hsame ▸ hids, nonempty_replace b a x _ hne (by simp [htp]), ?_⟩
      intro c hc
      show c ∉ ids (b ++ (⟨x.cid, tp ++ tn⟩ : container) :: a) ↔ _
      rw [hsame]
      constructor
      · intro hn; exact absurd hc hn
      · rintro ⟨cmd2, hcmd, hcc, hlc⟩
        have hcmd2 : cmd = cmd2 := Option.some.inj hcmd
        subst hcmd2
        rw [← hcc, hl] at hlc
        have := Option.some.inj hlc
        exact absurd (by rw [this]) hx1
    · rw [h1] at h
      cases h
      subst hreg
      have hsame : ids (b ++ (⟨x.cid, n :: t2⟩ : container) :: a) = ids (b ++ x :: a) := by
        rw [ids_split, ids_split]
      have hx1 : x.threadList ≠ [p] := by
        rw [hq, htp, htn]
        simp
      refine ⟨hsame ▸ hids, nonempty_replace b a x _ hne (by simp), ?_⟩
      intro c hc
      show c ∉ ids (b ++ (⟨x.cid, n :: t2⟩ : container) :: a) ↔ _
      rw [hsame]
      constructor
      · intro hn; exact absurd hc hn
      · rintro ⟨cmd2, hcmd, hcc, hlc⟩
        have hcmd2 : cmd = cmd2 := Option.some.inj hcmd
        subst hcmd2
        rw [← hcc, hl] at hlc
        have := Option.some.inj hlc
        exact absurd (by rw [this]) hx1
    · rw [h1] at h
      cases h
      subst hreg
      have hx1 : x.threadList = [p] := by
        rw [hq, htp, htn]
        rfl
      have hgone := id_not_beside b a x hids
      refine ⟨ids_nodup_remove b a x hids, nonempty_remove b a x hne, ?_⟩
      intro c hc
      show c ∉ ids (b ++ a) ↔ _
      constructor
      · intro hn
        have hcx : c = x.cid := by
          rw [ids_split] at hc
          rw [ids_remove] at hn
          simp only [List.mem_append, List.mem_cons] at hc hn
          tauto
        refine ⟨cmd, rfl, hx.symm.trans hcx.symm, ?_⟩
        have hxe : x = ⟨c, [p]⟩ := by
          cases x
          simp only at hx1 hcx
          subst hx1
          subst hcx
          rfl
        rw [← hxe, hcx, hx]
        exact hl
      · rintro ⟨cmd2, hcmd, hcc, _⟩
        have hcmd2 : cmd = cmd2 := Option.some.inj hcmd
        subst hcmd2
        rw [← hcc, ← hx]
        exact hgone

theorem run_keeps (registry : Registry) (h : Run registry) :
    (ids registry).Nodup ∧ ∀ y ∈ registry, y.threadList ≠ [] := by
  induction h with
  | init => exact ⟨by simp [ids], by simp⟩
  | join registry user_cmd p o _ ho ih =>
    exact create_keeps registry user_cmd p o ih.1 ih.2 ho
  | yield registry user_cmd p o _ ho ih =>
    exact (switch_keeps registry user_cmd p o ih.1 ih.2 ho).2
  | leave registry user_cmd p o _ ho ih =>
    exact ⟨(delete_keeps registry user_cmd p o ih.1 ih.2 ho).1,
      (delete_keeps registry user_cmd p o ih.1 ih.2 ho).2.1⟩

theorem create_keeps_ids (registry : Registry) (user_cmd : Option processor_container_cmd)
    (p : Pid) (o : Outcome)
    (h : processor_container_create registry user_cmd p = .ok o) :
    ∀ c ∈ ids registry, c ∈ ids o.containerListHead := by
  intro c hc
  cases user_cmd with
  | none => cases h; exact hc
  | some cmd =>
    rcases create_cases registry cmd p with
      ⟨_, h1⟩ | ⟨b, x, a, hreg, _, _, _, ⟨_, h1⟩ | ⟨_, h1⟩⟩
    · rw [h1] at h
      cases h
      show c ∈ ids (registry ++ [(⟨cmd.cid, [p]⟩ : container)])
      rw [ids_remove]
      exact List.mem_append_left _ hc
    · rw [h1] at h
      cases h
      exact hc
    · rw [h1] at h
      cases h
      subst hreg
      show c ∈ ids (b ++ (⟨x.cid, x.threadList ++ [p]⟩ : container) :: a)
      rw [ids_split] at hc ⊢
      exact hc

/-- C11. In every directory reached from the empty one by requests that return, whoever
issues them: ids are pairwise distinct and every registered container has a member. A
container leaves the directory exactly when its last member leaves: from such a
directory, Create-or-Join keeps every id, Yield keeps the ids as they are, and after a
Leave an id of the directory is gone if and only if the Leave named it and its queue was
the caller alone. -/
theorem registry_stays_well_formed (registry : Registry) (h : Run registry) :
    (ids registry).Nodup ∧ (∀ x ∈ registry, x.threadList ≠ []) ∧
    (∀ user_cmd p o, processor_container_create registry user_cmd p = .ok o →
      ∀ c ∈ ids registry, c ∈ ids o.containerListHead) ∧
    (∀ user_cmd p o, processor_container_switch registry user_cmd p = .ok o →
      ids o.containerListHead = ids registry) ∧
    (∀ user_cmd p o, processor_container_delete registry user_cmd p = .ok o →
      ∀ c ∈ ids registry, (c ∉ ids o.containerListHead ↔
        ∃ cmd, user_cmd = some cmd ∧ cmd.cid = c ∧
          lookup registry c = some ⟨c, [p]⟩)) := by
  have hk := run_keeps registry h
  refine ⟨hk.1, hk.2, ?_, ?_, ?_⟩
  · intro user_cmd p o ho
    exact create_keeps_ids registry user_cmd p o ho
  · intro user_cmd p o ho
    exact (switch_keeps registry user_cmd p o hk.1 hk.2 ho).1
  · intro user_cmd p o ho
    exact (delete_keeps registry user_cmd p o hk.1 hk.2 ho).2.2

theorem registry_stays_well_formed_witness :
    Run [⟨1, [5, 6]⟩] ∧
    ((ids [⟨1, [5, 6]⟩]).Nodup ∧ ∀ x ∈ ([⟨1, [5, 6]⟩] : Registry), x.threadList ≠ []) :=
  (fun h => ⟨h, (registry_stays_well_formed _ h).1, (registry_stays_well_formed _ h).2.1⟩)
    (Run.join [⟨1, [5]⟩] (some ⟨1, 0⟩) 6
      ⟨[⟨1, [5, 6]⟩], [.mutex_lock_list, .mutex_unlock_list, .mutex_lock_container 1,
        .mutex_unlock_container 1, .schedule], 0⟩
      (Run.join [] (some ⟨1, 0⟩) 5
        ⟨[⟨1, [5]⟩], [.mutex_lock_list, .mutex_unlock_list], 0⟩ Run.init rfl) rfl)

/-! ## One entry per task in a container -/

theorem run_of_joinOnce (registry : Registry) (h : RunJoinOnce registry) : Run registry := by
  induction h with
  | init => exact Run.init
  | join registry user_cmd p o _ _ ho ih => exact Run.join registry user_cmd p o ih ho
  | yield registry user_cmd p o _ ho ih => exact Run.yield registry user_cmd p o ih ho
  | leave registry user_cmd p o _ ho ih => exact Run.leave registry user_cmd p o ih ho

theorem queues_nodup_replace (b a : List container) (x : container) (q : List Pid)
    (h : ∀ y ∈ b ++ x :: a, y.threadList.Nodup) (hq : q.Nodup) :
    ∀ y ∈ b ++ (⟨x.cid, q⟩ : container) :: a, y.threadList.Nodup := by
  intro y hy
  simp only [List.mem_append, List.mem_cons] at hy
  rcases hy with hy | hy | hy
  · exact h y (by simp [hy])
  · rw [hy]; exact hq
  · exact h y (by simp [hy])

theorem queues_nodup_remove (b a : List container) (x : container)
    (h : ∀ y ∈ b ++ x :: a, y.threadList.Nodup) : ∀ y ∈ b ++ a, y.threadList.Nodup := by
  intro y hy
  apply h y
  simp only [List.mem_append, List.mem_cons] at hy ⊢
  tauto

theorem create_keeps_queues (registry : Registry)
    (user_cmd : Option processor_container_cmd) (p : Pid) (o : Outcome)
    (hq : ∀ y ∈ registry, y.threadList.Nodup)
    (honce : ∀ cmd x, user_cmd = some cmd → lookup registry cmd.cid = some x →
      p ∉ x.threadList)
    (h : processor_container_create registry user_cmd p = .ok o) :
    ∀ y ∈ o.containerListHead, y.threadList.Nodup := by
  cases user_cmd with
  | none => cases h; exact hq
  | some cmd =>
    rcases create_cases registry cmd p with
      ⟨_, h1⟩ | ⟨b, x, a, hreg, _, _, hl, ⟨_, h1⟩ | ⟨_, h1⟩⟩
    · rw [h1] at h
      cases h
      intro y hy
      rcases List.mem_append.1 hy with hy | hy
      · exact hq y hy
      · rw [List.mem_singleton.1 hy]; simp
    · rw [h1] at h
      cases h
      exact hq
    · rw [h1] at h
      cases h
      have hp := honce cmd x rfl hl
      subst hreg
      have hx : x.threadList.Nodup := hq x (by simp)
      refine queues_nodup_replace b a x _ hq ?_
      rw [List.nodup_append]
      refine ⟨hx, by simp, ?_⟩
      intro i hi hi2
      have : i = p := by simpa using hi2
      exact hp (this ▸ hi)

theorem switch_keeps_queues (registry : Registry)
    (user_cmd : Option processor_container_cmd) (p : Pid) (o : Outcome)
    (hne : ∀ y ∈ registry, y.threadList ≠ [])
    (hq : ∀ y ∈ registry, y.threadList.Nodup)
    (h : processor_container_switch registry user_cmd p = .ok o) :
    ∀ y ∈ o.containerListHead, y.threadList.Nodup := by
  cases user_cmd with
  | none => cases h; exact hq
  | some cmd =>
    rcases switch_cases registry cmd p hne with
      ⟨_, h1⟩ | ⟨w, x, r, t, hreg, hx, _, ⟨_, h1⟩ | ⟨n, t2, ht, h1⟩⟩
    · rw [h1] at h
      cases h
      exact hq
    · rw [h1] at h
      cases h
      exact hq
    · rw [h1] at h
      cases h
      subst hreg
      have hxn : x.threadList.Nodup := hq x (by simp)
      rw [hx, ht] at hxn
      exact queues_nodup_replace w r x _ hq
        ((List.perm_append_singleton p (n :: t2)).nodup_iff.2 hxn)

theorem delete_keeps_queues (registry : Registry)
    (user_cmd : Option processor_container_cmd) (p : Pid) (o : Outcome)
    (hq : ∀ y ∈ registry, y.threadList.Nodup)
    (h : processor_container_delete registry user_cmd p = .ok o) :
    ∀ y ∈ o.containerListHead, y.threadList.Nodup := by
  cases user_cmd with
  | none => cases h; exact hq
  | some cmd =>
    rcases delete_cases registry cmd p with
      ⟨h0, h1⟩ | ⟨_, _, h1⟩ | ⟨b, x, a, hreg, _, _, _,
        ⟨_, h1⟩ | ⟨_, _, h1⟩ | ⟨tp, tn, hx, _, _,
          ⟨_, h1⟩ | ⟨htp, n, t2, htn, h1⟩ | ⟨_, _, h1⟩⟩⟩
    · rw [h1] at h
      cases h
      simp
    · rw [h1] at h
      cases h
    · rw [h1] at h
      cases h
      exact hq
    · rw [h1] at h
      cases h
    · rw [h1] at h
      cases h
      subst hreg
      have hxn : x.threadList.Nodup := hq x (by simp)
      rw [hx] at hxn
      exact queues_nodup_replace b a x _ hq
        (List.Nodup.sublist (List.Sublist.append (List.Sublist.refl _)
          (List.sublist_cons_self _ _)) hxn)
    · rw [h1] at h
      cases h
      subst hreg
      have hxn : x.threadList.Nodup := hq x (by simp)
      rw [hx, htp, htn] at hxn
      exact queues_nodup_replace b a x _ hq (List.nodup_cons.1 hxn).2
    · rw [h1] at h
      cases h
      subst hreg
      exact queues_nodup_remove b a x hq

/-- C12, as the code has it. In every directory reached from the empty one by requests
that return, where a task issues Create-or-Join on an id only while it has no entry in
the container held for that id, no queue holds two entries of the same task. -/
theorem one_entry_per_task (registry : Registry) (h : RunJoinOnce registry) :
    ∀ x ∈ registry, x.threadList.Nodup := by
  induction h with
  | init => simp
  | join registry user_cmd p o hrun honce ho ih =>
    exact create_keeps_queues registry user_cmd p o ih honce ho
  | yield registry user_cmd p o hrun ho ih =>
    exact switch_keeps_queues registry user_cmd p o
      (run_keeps registry (run_of_joinOnce registry hrun)).2 ih ho
  | leave registry user_cmd p o hrun ho ih =>
    exact delete_keeps_queues registry user_cmd p o ih ho

theorem one_entry_per_task_witness :
    RunJoinOnce [⟨1, [5, 6]⟩] ∧ ∀ x ∈ ([⟨1, [5, 6]⟩] : Registry), x.threadList.Nodup :=
  (fun h => ⟨h, one_entry_per_task _ h⟩)
    (RunJoinOnce.join [⟨1, [5]⟩] (some ⟨1, 0⟩) 6
      ⟨[⟨1, [5, 6]⟩], [.mutex_lock_list, .mutex_unlock_list, .mutex_lock_container 1,
        .mutex_unlock_container 1, .schedule], 0⟩
      (RunJoinOnce.join [] (some ⟨1, 0⟩) 5
        ⟨[⟨1, [5]⟩], [.mutex_lock_list, .mutex_unlock_list], 0⟩ RunJoinOnce.init
        (by simp [lookup]) rfl)
      (by simp [lookup]) rfl)

/-- C12, as stated, fails: task 5 creates container 1 and, running, joins it again; both
requests return and the queue of container 1 then holds two entries of task 5. -/
theorem duplicate_entry_reachable :
    Run [⟨1, [5, 5]⟩] ∧ ¬ ([5, 5] : List Pid).Nodup ∧
      ∃ x ∈ ([⟨1, [5, 5]⟩] : Registry), ¬ x.threadList.Nodup :=
  ⟨Run.join [⟨1, [5]⟩] (some ⟨1, 0⟩) 5
      ⟨[⟨1, [5, 5]⟩], [.mutex_lock_list, .mutex_unlock_list, .mutex_lock_container 1,
        .mutex_unlock_container 1, .schedule], 0⟩
      (Run.join [] (some ⟨1, 0⟩) 5
        ⟨[⟨1, [5]⟩], [.mutex_lock_list, .mutex_unlock_list], 0⟩ Run.init rfl) rfl,
    by decide, ⟨⟨1, [5, 5]⟩, by simp, by decide⟩⟩

/-! ## Leave and the id of the request -/

/-- C16, as the code has it. In a well-formed directory where task `p` is a member of
exactly one container `C`, a Leave by `p` whose request carries the id of `C` returns and
removes `p` from `C`: the queue of `C` loses the entry of `p`, or `C` leaves the directory
when `p` was its only member; afterwards `p` is in no container, and the caller was not
put to sleep. -/
theorem delete_own_container (registry : Registry) (cmd : processor_container_cmd)
    (p : Pid) (C : container) (hwf : WellFormed registry) (hC : C ∈ registry)
    (hp : p ∈ C.threadList) (honly : ∀ y ∈ registry, p ∈ y.threadList → y = C)
    (hid : cmd.cid = C.cid) :
    ∃ o b a, processor_container_delete registry (some cmd) p = .ok o ∧
      registry = b ++ C :: a ∧
      o.containerListHead =
        (if C.threadList.erase p = [] then b ++ a
         else b ++ ⟨C.cid, C.threadList.erase p⟩ :: a) ∧
      (∀ y ∈ o.containerListHead, p ∉ y.threadList) ∧ suspends o.trace = false := by
  obtain ⟨hids, _, hqn⟩ := hwf
  rcases delete_cases registry cmd p with
    ⟨h0, _⟩ | ⟨_, hno, _⟩ | ⟨b, x, a, hreg, hx, _, _,
      ⟨hq, _⟩ | ⟨_, hpx, _⟩ | ⟨tp, tn, hq, hptp, herase,
        ⟨htp, h1⟩ | ⟨htp, n, t2, htn, h1⟩ | ⟨htp, htn, h1⟩⟩⟩
  · rw [h0] at hC
    simp at hC
  · exact absurd hid.symm (hno C hC)
  · subst hreg
    have hCx : C = x := unique_by_id b a x C hids hC (hx.trans hid).symm
    subst hCx
    rw [hq] at hp
    simp at hp
  · subst hreg
    have hCx : C = x := unique_by_id b a x C hids hC (hx.trans hid).symm
    subst hCx
    exact absurd hp hpx
  all_goals
    subst hreg
    have hCx : C = x := unique_by_id b a x C hids hC (hx.trans hid).symm
    subst hCx
    have hCn : C.threadList.Nodup := hqn C hC
    rw [hq] at hCn
    have hptn : p ∉ tn :=
      (List.nodup_cons.1 (List.nodup_append.1 hCn).2.1).1
    have hclean : ∀ y ∈ b ++ a, p ∉ y.threadList := by
      intro y hy hpy
      have hyreg : y ∈ b ++ C :: a := by
        simp only [List.mem_append, List.mem_cons] at hy ⊢
        tauto
      have hyC := honly y hyreg hpy
      subst hyC
      exact id_not_beside b a y hids ((mem_ids y.cid (b ++ a)).2 ⟨y, hy, rfl⟩)
    have hnew : ∀ y ∈ b ++ (⟨C.cid, tp ++ tn⟩ : container) :: a, p ∉ y.threadList := by
      intro y hy
      simp only [List.mem_append, List.mem_cons] at hy
      rcases hy with hy | hy | hy
      · exact hclean y (by simp [hy])
      · rw [hy]
        simp only [List.mem_append, not_or]
        exact ⟨hptp, hptn⟩
      · exact hclean y (by simp [hy])
  · refine ⟨_, b, a, h1, rfl, ?_, hnew, rfl⟩
    rw [herase]
    have : tp ++ tn ≠ [] := by simp [htp]
    simp [this]
  · refine ⟨_, b, a, h1, rfl, ?_, ?_, rfl⟩
    · rw [herase, htp, htn]
      simp
    · rw [htp, htn] at hnew
      exact hnew
  · refine ⟨_, b, a, h1, rfl, ?_, hclean, rfl⟩
    rw [herase, htp, htn]
    simp

theorem delete_own_container_witness :
    WellFormed [⟨1, [4, 6]⟩, ⟨2, [5]⟩] ∧
    ∃ o b a, processor_container_delete [⟨1, [4, 6]⟩, ⟨2, [5]⟩] (some ⟨1, 0⟩) 6 = .ok o ∧
      [⟨1, [4, 6]⟩, ⟨2, [5]⟩] = b ++ (⟨1, [4, 6]⟩ : container) :: a ∧
      o.containerListHead =
        (if (⟨1, [4, 6]⟩ : container).threadList.erase 6 = [] then b ++ a
         else b ++ ⟨(⟨1, [4, 6]⟩ : container).cid,
           (⟨1, [4, 6]⟩ : container).threadList.erase 6⟩ :: a) ∧
      (∀ y ∈ o.containerListHead, 6 ∉ y.threadList) ∧ suspends o.trace = false :=
  (fun h => ⟨h, delete_own_container [⟨1, [4, 6]⟩, ⟨2, [5]⟩] ⟨1, 0⟩ 6 ⟨1, [4, 6]⟩ h
    (by decide) (by decide) (by decide) rfl⟩)
    (by unfold WellFormed ids; decide)

/-- C16, as stated, fails: in the well-formed directory where task 4 is a member of
container 1 only, a Leave by task 4 whose request carries id 2 (another container) or id
3 (no container) does not return, and so does not remove task 4 from container 1. -/
theorem leave_with_other_id_does_not_remove :
    WellFormed [⟨1, [4]⟩, ⟨2, [5]⟩] ∧
    (∀ y ∈ ([⟨1, [4]⟩, ⟨2, [5]⟩] : Registry), 4 ∈ y.threadList → y = ⟨1, [4]⟩) ∧
    processor_container_delete [⟨1, [4]⟩, ⟨2, [5]⟩] (some ⟨2, 0⟩) 4
      = .error .null_dereference ∧
    processor_container_delete [⟨1, [4]⟩, ⟨2, [5]⟩] (some ⟨3, 0⟩) 4
      = .error .null_dereference ∧
    ¬ ∃ o, processor_container_delete [⟨1, [4]⟩, ⟨2, [5]⟩] (some ⟨2, 0⟩) 4 = .ok o ∧
      ∀ y ∈ o.containerListHead, 4 ∉ y.threadList :=
  ⟨by unfold WellFormed ids; decide, by decide, rfl, rfl, by
    rintro ⟨o, ho, _⟩
    have e : processor_container_delete [⟨1, [4]⟩, ⟨2, [5]⟩] (some ⟨2, 0⟩) 4
        = .error .null_dereference := rfl
    rw [e] at ho
    cases ho⟩

/-! ## Frame -/

theorem others_split (c : Nat) (b a : List container) (x : container) (hx : x.cid = c) :
    others c (b ++ x :: a) = others c (b ++ a) := by
  simp [others, List.filter_append, List.filter_cons, hx]

theorem others_append_new (c : Nat) (registry : Registry) (q : List Pid) :
    others c (registry ++ [⟨c, q⟩]) = others c registry := by
  simp [others, List.filter_append, List.filter_cons]

/-- C20. Frame. In a well-formed directory: Create-or-Join returns, and the containers
with another id than the requested one are the same as before, with the same queues and
in the same order, the ids of the directory keeping their order with at most the
requested id added; whenever Leave returns, the containers with another id than the
requested one are likewise the same, and the ids keep their order with at most the
requested id gone; Yield returns, and either no container has the caller in front and the
directory is as it was, or only the queue of the first container that has the caller in
front changed, all containers before and after it being as they were; and a verb given a
null request leaves the directory as it was. -/
theorem other_containers_untouched (registry : Registry) (hwf : WellFormed registry)
    (cmd : processor_container_cmd) (p : Pid) :
    (∃ o, processor_container_create registry (some cmd) p = .ok o ∧
      others cmd.cid o.containerListHead = others cmd.cid registry ∧
      List.Sublist (ids registry) (ids o.containerListHead)) ∧
    (∀ o, processor_container_delete registry (some cmd) p = .ok o →
      others cmd.cid o.containerListHead = others cmd.cid registry ∧
      List.Sublist (ids o.containerListHead) (ids registry)) ∧
    (∃ o, processor_container_switch registry (some cmd) p = .ok o ∧
      (((∀ y ∈ registry, y.threadList.head? ≠ some p) ∧ o.containerListHead = registry) ∨
       ∃ w x r q, registry = w ++ x :: r ∧ x.threadList.head? = some p ∧
        (∀ y ∈ w, y.threadList.head? ≠ some p) ∧
        o.containerListHead = w ++ ⟨x.cid, q⟩ :: r)) ∧
    (∃ o, processor_container_create registry none p = .ok o ∧
      o.containerListHead = registry) ∧
    (∃ o, processor_container_delete registry none p = .ok o ∧
      o.containerListHead = registry) ∧
    (∃ o, processor_container_switch registry none p = .ok o ∧
      o.containerListHead = registry) := by
  have hsame : ∀ (b a : List container) (x : container) (q : List Pid),
      ids (b ++ (⟨x.cid, q⟩ : container) :: a) = ids (b ++ x :: a) := by
    intro b a x q
    rw [ids_split, ids_split]
  refine ⟨?_, ?_, ?_, ⟨_, rfl, rfl⟩, ⟨_, rfl, rfl⟩, ⟨_, rfl, rfl⟩⟩
  · rcases create_cases registry cmd p with
      ⟨_, h1⟩ | ⟨b, x, a, hreg, hx, _, _, ⟨_, h1⟩ | ⟨_, h1⟩⟩
    · refine ⟨_, h1, others_append_new cmd.cid registry [p], ?_⟩
      show List.Sublist (ids registry) (ids (registry ++ [(⟨cmd.cid, [p]⟩ : container)]))
      rw [ids_remove]
      exact List.sublist_append_left _ _
    · exact ⟨_, h1, rfl, List.Sublist.refl _⟩
    · refine ⟨_, h1, ?_, ?_⟩
      · show others cmd.cid (b ++ (⟨x.cid, x.threadList ++ [p]⟩ : container) :: a) = _
        rw [hreg, others_split cmd.cid b a x hx]
        exact others_split cmd.cid b a _ hx
      · show List.Sublist _ (ids (b ++ (⟨x.cid, x.threadList ++ [p]⟩ : container) :: a))
        rw [hsame, hreg]
  · intro o h
    rcases delete_cases registry cmd p with
      ⟨h0, h1⟩ | ⟨_, _, h1⟩ | ⟨b, x, a, hreg, hx, _, _,
        ⟨_, h1⟩ | ⟨_, _, h1⟩ | ⟨tp, tn, _, _, _,
          ⟨_, h1⟩ | ⟨_, n, t2, _, h1⟩ | ⟨_, _, h1⟩⟩⟩
    · rw [h1] at h
      cases h
      rw [h0]
      exact ⟨rfl, List.Sublist.refl _⟩
    · rw [h1] at h
      cases h
    · rw [h1] at h
      cases h
      exact ⟨rfl, List.Sublist.refl _⟩
    · rw [h1] at h
      cases h
    · rw [h1] at h
      cases h
      refine ⟨?_, ?_⟩
      · show others cmd.cid (b ++ (⟨x.cid, tp ++ tn⟩ : container) :: a) = _
        rw [hreg, others_split cmd.cid b a x hx]
        exact others_split cmd.cid b a _ hx
      · show List.Sublist (ids (b ++ (⟨x.cid, tp ++ tn⟩ : container) :: a)) _
        rw [hsame, hreg]
    · rw [h1] at h
      cases h
      refine ⟨?_, ?_⟩
      · show others cmd.cid (b ++ (⟨x.cid, n :: t2⟩ : container) :: a) = _
        rw [hreg, others_split cmd.cid b a x hx]
        exact others_split cmd.cid b a _ hx
      · show List.Sublist (ids (b ++ (⟨x.cid, n :: t2⟩ : container) :: a)) _
        rw [hsame, hreg]
    · rw [h1] at h
      cases h
      refine ⟨?_, ?_⟩
      · show others cmd.cid (b ++ a) = _
        rw [hreg, others_split cmd.cid b a x hx]
      · show List.Sublist (ids (b ++ a)) _
        rw [hreg, ids_split, ids_remove]
        exact List.Sublist.append (List.Sublist.refl _) (List.sublist_cons_self _ _)
  · rcases switch_cases registry cmd p hwf.2.1 with
      ⟨hno, h1⟩ | ⟨w, x, r, t, hreg, hx, hw, ⟨_, h1⟩ | ⟨n, t2, _, h1⟩⟩
    · exact ⟨_, h1, Or.inl ⟨hno, rfl⟩⟩
    · refine ⟨_, h1, Or.inr ⟨w, x, r, x.threadList, hreg, by simp [hx], hw, ?_⟩⟩
      show registry = w ++ (⟨x.cid, x.threadList⟩ : container) :: r
      exact hreg
    · exact ⟨_, h1, Or.inr ⟨w, x, r, n :: t2 ++ [p], hreg, by simp [hx], hw, rfl⟩⟩

theorem other_containers_untouched_witness :
    WellFormed [⟨1, [4, 6]⟩, ⟨2, [5]⟩] ∧
    ∃ o, processor_container_create [⟨1, [4, 6]⟩, ⟨2, [5]⟩] (some ⟨2, 0⟩) 7 = .ok o ∧
      others 2 o.containerListHead = others 2 [⟨1, [4, 6]⟩, ⟨2, [5]⟩] ∧
      List.Sublist (ids [⟨1, [4, 6]⟩, ⟨2, [5]⟩]) (ids o.containerListHead) :=
  (fun h => ⟨h, (other_containers_untouched [⟨1, [4, 6]⟩, ⟨2, [5]⟩] h ⟨2, 0⟩ 7).1⟩)
    (by unfold WellFormed ids; decide)

end ResourceContainers
